import Mathlib

/-!
Verification development for the dynamic model-settings engine of the
repository (module `src/controllers/ai_models/settings_controller.py`).

The Python values flowing through the engine (JSON-like documents) are
modelled by the mutual inductive `Value` / `ValueList` / `ValueDict`.
Python `dict`s become association lists (`ValueDict`) whose operations
mirror CPython semantics: lookup returns the first (unique) match,
assignment replaces in place or appends, preserving insertion order.
Python `None` is `Value.vnull`.  Machine floats do not occur in any of
the repository's schema documents and are outside the embedding.

Fallible Python code (raising exceptions) is embedded with `Except PyError`.
-/

set_option autoImplicit false

namespace Settings

mutual
inductive Value where
  | vnull : Value
  | vbool : Bool → Value
  | vint : Int → Value
  | vstr : String → Value
  | vlist : ValueList → Value
  | vdict : ValueDict → Value

inductive ValueList where
  | nil : ValueList
  | cons : Value → ValueList → ValueList

inductive ValueDict where
  | nil : ValueDict
  | cons : String → Value → ValueDict → ValueDict
end

deriving instance DecidableEq for Value, ValueList, ValueDict
deriving instance DecidableEq for Except

/-- Python exception kinds raised by the embedded code. -/
inductive PyError where
  | valueError : String → PyError
  | typeError : String → PyError
  | keyError : String → PyError
  | nameError : String → PyError
  | attributeError : String → PyError
  | indexError : String → PyError
deriving DecidableEq

namespace ValueDict

/-- Python `d[k]` / `k in d` lookup: first entry with the given key. -/
def dget : ValueDict → String → Option Value
  | .nil, _ => none
  | .cons k v rest, key => if k == key then some v else dget rest key

/-- Python `d.get(k, default)`. -/
def dgetD (d : ValueDict) (k : String) (dflt : Value) : Value :=
  (dget d k).getD dflt

/-- Python `k in d`. -/
def dcontains (d : ValueDict) (k : String) : Bool :=
  (dget d k).isSome

/-- Python `d[k] = v`: replace in place if the key exists, else append. -/
def dset : ValueDict → String → Value → ValueDict
  | .nil, k, v => .cons k v .nil
  | .cons k' v' rest, k, v =>
      if k' == k then .cons k v rest else .cons k' v' (dset rest k v)

/-- Python `d.update(d2)`: assign each entry of `d2` into `d` in order. -/
def dupdate : ValueDict → ValueDict → ValueDict
  | d, .nil => d
  | d, .cons k v rest => dupdate (dset d k v) rest

/-- View a Python dict as a list of key/value pairs (insertion order). -/
def toList : ValueDict → List (String × Value)
  | .nil => []
  | .cons k v rest => (k, v) :: toList rest

/-- The keys of a dict, in insertion order. -/
def keys : ValueDict → List String
  | .nil => []
  | .cons k _ rest => k :: keys rest

end ValueDict

open ValueDict

/-- Python `value is None`. -/
def isNull : Value → Bool
  | .vnull => true
  | _ => false

/-- Python `isinstance(value, (int, float))` restricted to the modelled
value universe.  CPython treats `bool` as a subclass of `int`, so booleans
count as numbers; their numeric values are 1 and 0. -/
def toNum : Value → Option Int
  | .vint n => some n
  | .vbool b => some (if b then 1 else 0)
  | _ => none

/-- Python truthiness of a value (`if x:`). -/
def truthy : Value → Bool
  | .vnull => false
  | .vbool b => b
  | .vint n => n != 0
  | .vstr s => s != ""
  | .vlist .nil => false
  | .vlist (.cons _ _) => true
  | .vdict .nil => false
  | .vdict (.cons _ _ _) => true

mutual
/-- Structural equality on values.  Models MongoDB query matching
(`find_one`), where strings and booleans match only their own type, and
the `field_type == "range"`-style comparisons of `_validate_field`,
where it coincides with Python `==` because one side is always a string
literal. -/
def valueBeq : Value → Value → Bool
  | .vnull, .vnull => true
  | .vbool a, .vbool b => a == b
  | .vint a, .vint b => a == b
  | .vstr a, .vstr b => a == b
  | .vlist a, .vlist b => listBeq a b
  | .vdict a, .vdict b => dictBeq a b
  | _, _ => false

def listBeq : ValueList → ValueList → Bool
  | .nil, .nil => true
  | .cons a as, .cons b bs => valueBeq a b && listBeq as bs
  | _, _ => false

def dictBeq : ValueDict → ValueDict → Bool
  | .nil, .nil => true
  | .cons k v rest, .cons k' v' rest' => k == k' && valueBeq v v' && dictBeq rest rest'
  | _, _ => false
end

/-- Number of entries of a dict (`len(d)`). -/
def dictLen : ValueDict → Nat
  | .nil => 0
  | .cons _ _ rest => dictLen rest + 1

mutual
/-- Python `==` on values, as used by the `in` membership test of the
`select` branch: `None` equals only itself, numbers and booleans compare
by numeric value (`True == 1`), strings compare as strings, lists
elementwise, dicts by key lookup irrespective of entry order. -/
def pyEq : Value → Value → Bool
  | .vnull, .vnull => true
  | .vstr a, .vstr b => a == b
  | .vlist a, .vlist b => pyEqList a b
  | .vdict a, .vdict b => dictLen a == dictLen b && pyEqDict a b
  | a, b =>
      match toNum a, toNum b with
      | some m, some n => m == n
      | _, _ => false
termination_by x y => sizeOf x + sizeOf y

def pyEqList : ValueList → ValueList → Bool
  | .nil, .nil => true
  | .cons a as, .cons b bs => pyEq a b && pyEqList as bs
  | _, _ => false
termination_by a b => sizeOf a + sizeOf b

def pyEqDict : ValueDict → ValueDict → Bool
  | .nil, _ => true
  | .cons k v rest, b => pyEqFind k v b && pyEqDict rest b
termination_by a b => sizeOf a + sizeOf b

/-- Looks up key `k` in the dict and compares the found value with `v`
via Python `==`; false when the key is absent. -/
def pyEqFind (k : String) (v : Value) : ValueDict → Bool
  | .nil => false
  | .cons k2 w rest => if k2 == k then pyEq v w else pyEqFind k v rest
termination_by d => sizeOf v + sizeOf d
end

/-- Python `str(x)` for the value shapes that can reach an f-string in the
validator's error messages (numbers, booleans, strings, `None`; container
reprs are unreachable there because a failed numeric comparison raises
first). -/
def pyStr : Value → String
  | .vint n => toString n
  | .vbool true => "True"
  | .vbool false => "False"
  | .vstr s => s
  | .vnull => "None"
  | .vlist _ => ""
  | .vdict _ => ""

/-- A single-quote character, as it appears in the validator's messages. -/
def sq : String := "\x27"

def requiredMsg (p : String) : String :=
  "Field " ++ sq ++ p ++ sq ++ " is required"

def numberMsg (p : String) : String :=
  "Field " ++ sq ++ p ++ sq ++ " must be a number"

def atLeastMsg (p bound : String) : String :=
  "Field " ++ sq ++ p ++ sq ++ " must be at least " ++ bound

def atMostMsg (p bound : String) : String :=
  "Field " ++ sq ++ p ++ sq ++ " must be at most " ++ bound

def oneOfMsg (p joined : String) : String :=
  "Field " ++ sq ++ p ++ sq ++ " must be one of: " ++ joined

def stringMsg (p : String) : String :=
  "Field " ++ sq ++ p ++ sq ++ " must be a string"

def atLeastCharsMsg (p bound : String) : String :=
  "Field " ++ sq ++ p ++ sq ++ " must be at least " ++ bound ++ " characters"

def atMostCharsMsg (p bound : String) : String :=
  "Field " ++ sq ++ p ++ sq ++ " must be at most " ++ bound ++ " characters"

def boolMsg (p : String) : String :=
  "Field " ++ sq ++ p ++ sq ++ " must be true or false"

def notFoundMsg (slug : String) : String :=
  "Settings not found for model: " ++ slug

/-- Splitting a character list at every dot, keeping empty pieces; the
recursive form of Python's `split('.')` for the single-character
separator.  The result is never empty: the empty input gives `[""]`. -/
def splitChars : List Char → List String
  | [] => [""]
  | c :: rest =>
      match splitChars rest with
      | s :: t => if c == '.' then "" :: s :: t else (String.singleton c ++ s) :: t
      | [] => []

/-- Dotted-path split, as in `path.split('.')` (never returns an empty
list; a path without a dot yields the singleton of the path itself). -/
def splitPath (p : String) : List String := splitChars p.data

/-- Embeds `_get_nested_value`'s walk over the already split key list:
descend while the current value is a dict containing the key, otherwise
return `None`.  An explicit `None` stored at the path is returned as is,
which makes it indistinguishable from an absent path. -/
def getNestedKeys : Value → List String → Value
  | v, [] => v
  | .vdict d, k :: rest =>
      match dget d k with
      | some v => getNestedKeys v rest
      | none => .vnull
  | _, _ :: _ => .vnull

/-- Embeds `_get_nested_value(data, path)`. -/
def get_nested_value (data : ValueDict) (path : String) : Value :=
  getNestedKeys (.vdict data) (splitPath path)

/-- Embeds `_set_nested_value`'s walk over the already split key list.
Python mutates `data` in place: for each intermediate key it inserts a
fresh `{}` when the key is missing, then descends; descending into an
existing non-dict value makes the following `in` test or item assignment
raise a `TypeError`.  The final key is assigned unconditionally.
An empty key list would evaluate `keys[-1]` on an empty list
(`IndexError`); it is unreachable because `split` never returns `[]`. -/
def setNestedKeys : ValueDict → List String → Value → Except PyError ValueDict
  | _, [], _ => .error (.indexError "list index out of range")
  | d, k :: rest, v =>
      match rest with
      | [] => .ok (dset d k v)
      | _ :: _ =>
          match dgetD d k (.vdict .nil) with
          | .vdict sub =>
              match setNestedKeys sub rest v with
              | .ok sub2 => .ok (dset d k (.vdict sub2))
              | .error e => .error e
          | _ => .error (.typeError "argument is not a dict")

/-- Embeds `_set_nested_value(data, path, value)`. -/
def set_nested_value (data : ValueDict) (path : String) (v : Value) :
    Except PyError ValueDict :=
  setNestedKeys data (splitPath path) v

mutual
/-- Recursion helper of `_flatten_schema` for a nested group value (the
`elif isinstance(value, dict): flattened.update(...)` branch recurses
with a fresh dict). -/
def flattenGroup : Value → String → ValueDict
  | .vdict sub, path => flattenInto .nil sub path
  | _, _ => .nil

/-- Embeds the loop of `_flatten_schema(schema, prefix)` with `acc` the
`flattened` dict built so far: a dict value containing the key `"type"`
is recorded as a leaf at its dotted path, any other dict value is
recursed into, and non-dict values are skipped. -/
def flattenInto : ValueDict → ValueDict → String → ValueDict
  | acc, .nil, _ => acc
  | acc, .cons k v rest, pre =>
      let path := if pre == "" then k else pre ++ "." ++ k
      let acc2 :=
        match v with
        | .vdict sub =>
            if dcontains sub "type" then dset acc path (.vdict sub)
            else dupdate acc (flattenGroup v path)
        | _ => acc
      flattenInto acc2 rest pre
end

/-- Embeds `_flatten_schema(schema)` at its top-level call site. -/
def flatten_schema (schema : ValueDict) : ValueDict :=
  flattenInto .nil schema ""

/-- Embeds the `min` bound check of the `range` branch: skipped when the
key is absent or `None`; a present non-numeric bound makes Python's
`value < min_val` raise a `TypeError`. -/
def minErrs (cfg : ValueDict) (path : String) (n : Int) :
    Except PyError (List String) :=
  match dget cfg "min" with
  | none => .ok []
  | some .vnull => .ok []
  | some bv =>
      match toNum bv with
      | some b => .ok (if n < b then [atLeastMsg path (pyStr bv)] else [])
      | none => .error (.typeError "unorderable types")

/-- Embeds the `max` bound check of the `range` branch. -/
def maxErrs (cfg : ValueDict) (path : String) (n : Int) :
    Except PyError (List String) :=
  match dget cfg "max" with
  | none => .ok []
  | some .vnull => .ok []
  | some bv =>
      match toNum bv with
      | some b => .ok (if n > b then [atMostMsg path (pyStr bv)] else [])
      | none => .error (.typeError "unorderable types")

/-- Embeds `opt["value"]` inside the `select` branch's comprehension:
subscripting a non-dict option raises `TypeError`, a dict option without
the key raises `KeyError`. -/
def optValue : Value → Except PyError Value
  | .vdict d =>
      match dget d "value" with
      | some v => .ok v
      | none => .error (.keyError "value")
  | _ => .error (.typeError "not subscriptable")

/-- Embeds `[opt["value"] for opt in l]` over a list of options. -/
def optValuesList : ValueList → Except PyError (List Value)
  | .nil => .ok []
  | .cons o rest =>
      match optValue o with
      | .ok v =>
          match optValuesList rest with
          | .ok vs => .ok (v :: vs)
          | .error e => .error e
      | .error e => .error e

/-- Embeds `[opt["value"] for opt in config.get("options", [])]`: lists
are iterated; iterating an empty dict or empty string yields nothing;
iterating a non-empty dict or string yields strings whose subscripting
raises `TypeError`; other values are not iterable. -/
def optionValues : Value → Except PyError (List Value)
  | .vlist l => optValuesList l
  | .vdict .nil => .ok []
  | .vstr "" => .ok []
  | .vdict (.cons _ _ _) => .error (.typeError "not subscriptable")
  | .vstr _ => .error (.typeError "not subscriptable")
  | _ => .error (.typeError "not iterable")

/-- Python `value in valid_options`, membership via `==`. -/
def pyIn (v : Value) : List Value → Bool
  | [] => false
  | o :: rest => pyEq v o || pyIn v rest

/-- Embeds `', '.join(valid_options)`: every element must be a string,
otherwise `TypeError` is raised. -/
def joinStrs : List Value → Except PyError String
  | [] => .ok ""
  | [.vstr s] => .ok s
  | .vstr s :: rest =>
      match joinStrs rest with
      | .ok r => .ok (s ++ ", " ++ r)
      | .error e => .error e
  | _ :: _ => .error (.typeError "sequence item: expected str instance")

/-- Embeds the `min_length` check of the `text`/`textarea` branch.  Note
the source guards with `if min_length and ...`, i.e. Python truthiness:
an absent, `None`, zero or otherwise falsy bound skips the check
entirely; a truthy non-numeric bound makes `len(value) < min_length`
raise a `TypeError`. -/
def minLenErrs (vd : ValueDict) (path : String) (len : Nat) :
    Except PyError (List String) :=
  match dget vd "min_length" with
  | none => .ok []
  | some lv =>
      if truthy lv then
        match toNum lv with
        | some m => .ok (if (len : Int) < m then [atLeastCharsMsg path (pyStr lv)] else [])
        | none => .error (.typeError "unorderable types")
      else .ok []

/-- Embeds the `max_length` check of the `text`/`textarea` branch, with
the same truthiness guard as `minLenErrs`. -/
def maxLenErrs (vd : ValueDict) (path : String) (len : Nat) :
    Except PyError (List String) :=
  match dget vd "max_length" with
  | none => .ok []
  | some lv =>
      if truthy lv then
        match toNum lv with
        | some m => .ok (if (len : Int) > m then [atMostCharsMsg path (pyStr lv)] else [])
        | none => .error (.typeError "unorderable types")
      else .ok []

/-- Embeds `_validate_field(field_path, value, config)`, returning the
accumulated `errors` list (the source wraps it as
`{"valid": len(errors) == 0, "errors": errors}`).  The dispatch follows
the source's `if/elif` chain on `config.get("type", "text")`; an
unrecognized type falls through with no errors. -/
def validate_field (path : String) (value : Value) (cfg : ValueDict) :
    Except PyError (List String) :=
  let ftype := dgetD cfg "type" (.vstr "text")
  if valueBeq ftype (.vstr "range") then
    match toNum value with
    | none => .ok [numberMsg path]
    | some n =>
        match minErrs cfg path n with
        | .error e => .error e
        | .ok e1 =>
            match maxErrs cfg path n with
            | .error e => .error e
            | .ok e2 => .ok (e1 ++ e2)
  else if valueBeq ftype (.vstr "select") then
    match optionValues (dgetD cfg "options" (.vlist .nil)) with
    | .error e => .error e
    | .ok vals =>
        if pyIn value vals then .ok []
        else
          match joinStrs vals with
          | .error e => .error e
          | .ok joined => .ok [oneOfMsg path joined]
  else if valueBeq ftype (.vstr "text") || valueBeq ftype (.vstr "textarea") then
    match value with
    | .vstr s =>
        match dgetD cfg "validation" (.vdict .nil) with
        | .vdict vd =>
            match minLenErrs vd path s.length with
            | .error e => .error e
            | .ok e1 =>
                match maxLenErrs vd path s.length with
                | .error e => .error e
                | .ok e2 => .ok (e1 ++ e2)
        | _ => .error (.attributeError "get")
    | _ => .ok [stringMsg path]
  else if valueBeq ftype (.vstr "checkbox") then
    match value with
    | .vbool _ => .ok []
    | _ => .ok [boolMsg path]
  else .ok []

/-- One iteration of the field loop of `validate_user_input`: takes the
`validated_data` built so far and a `(field_path, field_config)` pair,
returns the updated `validated_data` together with the error messages
this field appends.  `field_config.get` on a non-dict would raise
`AttributeError`; unreachable because `_flatten_schema` only stores
dicts. -/
def processField (input : ValueDict) (vd : ValueDict) (path : String)
    (config : Value) : Except PyError (ValueDict × List String) :=
  match config with
  | .vdict cfg =>
      let value := get_nested_value input path
      if truthy (dgetD cfg "required" (.vbool false)) && isNull value then
        .ok (vd, [requiredMsg path])
      else if !isNull value then
        match validate_field path value cfg with
        | .error e => .error e
        | .ok ferrs =>
            if ferrs.isEmpty then
              match set_nested_value vd path value with
              | .ok vd2 => .ok (vd2, [])
              | .error e => .error e
            else .ok (vd, ferrs)
      else
        match dget cfg "default" with
        | some dv =>
            match set_nested_value vd path dv with
            | .ok vd2 => .ok (vd2, [])
            | .error e => .error e
        | none => .ok (vd, [])
  | _ => .error (.attributeError "get")

/-- The field loop of `validate_user_input` over the flattened schema's
entries, threading `validated_data` and appending errors in order. -/
def processFields (input : ValueDict) :
    List (String × Value) → ValueDict → List String →
    Except PyError (ValueDict × List String)
  | [], vd, errs => .ok (vd, errs)
  | (path, config) :: rest, vd, errs =>
      match processField input vd path config with
      | .ok (vd2, es) => processFields input rest vd2 (errs ++ es)
      | .error e => .error e

/-- The result dict of `validate_user_input`. -/
structure ValidationResult where
  valid : Bool
  errors : List String
  validated_data : ValueDict
deriving DecidableEq

/-- A stored collection of settings documents, in natural order. -/
abbrev Store := List ValueDict

/-- Embeds `find_one({"model_slug": model_slug, "is_active": True})` on
the `ai_model_settings` collection: first document matching both fields. -/
def findActive : Store → String → Option ValueDict
  | [], _ => none
  | d :: rest, slug =>
      if (match dget d "model_slug" with
          | some v => valueBeq v (.vstr slug)
          | none => false)
         &&
         (match dget d "is_active" with
          | some v => valueBeq v (.vbool true)
          | none => false)
      then some d else findActive rest slug

/-- Embeds `find_one({"model_slug": model_slug})` (the lookup used by
`update_model_settings`, which does not filter on `is_active`). -/
def findBySlug : Store → String → Option ValueDict
  | [], _ => none
  | d :: rest, slug =>
      if (match dget d "model_slug" with
          | some v => valueBeq v (.vstr slug)
          | none => false)
      then some d else findBySlug rest slug

/-- Python `doc[k]` with `KeyError` on a missing key. -/
def pyGet (d : ValueDict) (k : String) : Except PyError Value :=
  match dget d k with
  | some v => .ok v
  | none => .error (.keyError k)

/-- Embeds `get_model_settings(model_slug)`: look up the active settings
document, raise `ValueError` if there is none, otherwise project the
seven public fields into a fresh dict.  (`_prepare_document_data` only
rewrites a BSON `_id`, which is outside the modelled value universe and
does not appear in the projection.)  The `except` clause logs and
re-raises, so every error propagates unchanged. -/
def get_model_settings (store : Store) (slug : String) :
    Except PyError ValueDict := do
  match findActive store slug with
  | none => .error (.valueError (notFoundMsg slug))
  | some doc => do
      let f1 ← pyGet doc "model_slug"
      let f2 ← pyGet doc "model_name"
      let f3 ← pyGet doc "version"
      let f4 ← pyGet doc "settings_schema"
      let f5 ← pyGet doc "ui_layout"
      let f6 ← pyGet doc "pricing"
      let f7 ← pyGet doc "estimated_time"
      pure (.cons "model_slug" f1 (.cons "model_name" f2 (.cons "version" f3
        (.cons "settings_schema" f4 (.cons "ui_layout" f5 (.cons "pricing" f6
        (.cons "estimated_time" f7 .nil)))))))

/-- Embeds `validate_user_input(model_slug, user_input)`: fetch the
settings (propagating its errors), flatten the schema (whose `.items()`
call would raise `AttributeError` on a non-dict), run the field loop and
assemble the result with `valid = (len(errors) == 0)`.  The `except`
clause logs and re-raises, so exceptions always propagate and validation
failures are always a normal return. -/
def validate_user_input (store : Store) (slug : String)
    (input : ValueDict) : Except PyError ValidationResult := do
  let settings ← get_model_settings store slug
  let schema ← pyGet settings "settings_schema"
  match schema with
  | .vdict sd =>
      match processFields input (flatten_schema sd).toList .nil [] with
      | .ok (vd, errs) => .ok ⟨errs.length == 0, errs, vd⟩
      | .error e => .error e
  | _ => .error (.attributeError "items")

/-- Embeds `update_model_settings(model_slug, settings_data)`.  The
source raises `ValueError` when no document matches `model_slug`
(update-only, no upsert).  When a document exists it evaluates
`{**settings_data, "updated_at": datetime.utcnow()}`, but the module
never imports `datetime` (its imports are `typing`, `MongoDB`, `bson`
and `logging` only), so the reference raises `NameError` before any
write is attempted; the `except` clause re-raises it.  Consequently the
operation fails on every input and never modifies the store. -/
def update_model_settings (store : Store) (slug : String)
    (_settings_data : ValueDict) : Except PyError ValueDict :=
  match findBySlug store slug with
  | none => .error (.valueError (notFoundMsg slug))
  | some _ => .error (.nameError "name datetime is not defined")

/-- Is the value a Python `str`? -/
def isStr : Value → Bool
  | .vstr _ => true
  | _ => false

/-- `setNestedKeys d keys v` succeeds iff walking the intermediate keys
never meets an existing non-dict value; this predicate states that. -/
def setOk : ValueDict → List String → Bool
  | _, [] => true
  | d, k :: rest =>
      match rest with
      | [] => true
      | _ :: _ =>
          match dget d k with
          | none => true
          | some (.vdict sub) => setOk sub rest
          | some _ => false

/-- The error messages a single field contributes in the loop of
`validate_user_input`, as a function of the input only (the loop body's
error behaviour does not depend on `validated_data`). -/
def fieldErrs (input : ValueDict) (path : String) (config : Value) :
    Except PyError (List String) :=
  match config with
  | .vdict cfg =>
      let value := get_nested_value input path
      if truthy (dgetD cfg "required" (.vbool false)) && isNull value then
        .ok [requiredMsg path]
      else if !isNull value then
        match validate_field path value cfg with
        | .error e => .error e
        | .ok ferrs => .ok (if ferrs.isEmpty then [] else ferrs)
      else .ok []
  | _ => .error (.attributeError "get")

/-- The value a single field leaves in `validated_data` at its own path
(`vnull` meaning the path stays absent): the input value when it
validates, the default when absent and defaulted, nothing otherwise. -/
def fieldWrite (input : ValueDict) (path : String) (cfg : ValueDict) : Value :=
  let value := get_nested_value input path
  if truthy (dgetD cfg "required" (.vbool false)) && isNull value then .vnull
  else if !isNull value then
    match validate_field path value cfg with
    | .ok [] => value
    | _ => .vnull
  else (dget cfg "default").getD .vnull

mutual
/-- Companion of `flattenSpec` for recursing into a group node. -/
def flattenSpecGroup : Value → String → List (String × Value)
  | .vdict sub, path => flattenSpec sub path
  | _, _ => []

/-- The flattening rule as the specification words it: a node is emitted
as a leaf at its dotted path iff it is a mapping containing the key
`"type"`, and otherwise (if a mapping) it is recursed into with path
`prefix + "." + key`; results are concatenated in order.  Used to state
the refinement between the source's accumulator implementation and the
spec's recursion rule. -/
def flattenSpec : ValueDict → String → List (String × Value)
  | .nil, _ => []
  | .cons k v rest, pre =>
      let path := if pre == "" then k else pre ++ "." ++ k
      (match v with
       | .vdict sub =>
           if dcontains sub "type" then [(path, Value.vdict sub)]
           else flattenSpecGroup v path
       | _ => []) ++ flattenSpec rest pre
end

/-- A select option is well formed when it is a dict whose `"value"`
entry is a string (the shape of every option in the repository's seeded
schemas). -/
def wfOption : Value → Bool
  | .vdict d =>
      match dget d "value" with
      | some (.vstr _) => true
      | _ => false
  | _ => false

def wfOptions : ValueList → Bool
  | .nil => true
  | .cons o rest => wfOption o && wfOptions rest

/-- A range bound is well formed when absent, `None`, or numeric. -/
def wfBound (c : ValueDict) (k : String) : Bool :=
  match dget c k with
  | none => true
  | some .vnull => true
  | some v => (toNum v).isSome

/-- A length bound is well formed when absent, falsy, or numeric. -/
def wfLen (vd : ValueDict) (k : String) : Bool :=
  match dget vd k with
  | none => true
  | some v => !truthy v || (toNum v).isSome

/-- Well-formedness of a field definition, following the spec's data
model (§3): numeric-or-absent range bounds, options that are
`{value, label}` dicts with string values, a dict `validation` with
numeric-or-falsy length bounds.  Exactly what rules out the dynamic
`TypeError`s Python could otherwise raise inside `_validate_field`. -/
def wfFieldCfg (c : ValueDict) : Bool :=
  wfBound c "min" && wfBound c "max" &&
  (match dget c "options" with
   | none => true
   | some (.vlist l) => wfOptions l
   | some _ => false) &&
  (match dget c "validation" with
   | none => true
   | some (.vdict vd) => wfLen vd "min_length" && wfLen vd "max_length"
   | some _ => false)

def wfLeafEntries : List (String × Value) → Bool
  | [] => true
  | (_, v) :: rest =>
      (match v with
       | .vdict c => wfFieldCfg c
       | _ => false) && wfLeafEntries rest

/-- No path in the list is a (split-segment) prefix of another; rules
out one flattened path writing through another's leaf value. -/
def noOverlapWith (p : List String) : List (List String) → Bool
  | [] => true
  | q :: rest => !(p.isPrefixOf q) && !(q.isPrefixOf p) && noOverlapWith p rest

def noOverlap : List (List String) → Bool
  | [] => true
  | p :: rest => noOverlapWith p rest && noOverlap rest

def pathsOf (l : List (String × Value)) : List (List String) :=
  l.map (fun e => splitPath e.1)

/-- Well-formedness of a flattened schema: every leaf is a well-formed
field definition and the dotted paths do not overlap. -/
def wfFlat (fl : ValueDict) : Bool :=
  wfLeafEntries fl.toList && noOverlap (pathsOf fl.toList)

def requiredKeys : List String :=
  ["model_slug", "model_name", "version", "settings_schema",
   "ui_layout", "pricing", "estimated_time"]

def hasKeys (d : ValueDict) : List String → Bool
  | [] => true
  | k :: rest => dcontains d k && hasKeys d rest

/-- Well-formedness of a stored settings document: the seven projected
keys exist, `settings_schema` is a dict, and its flattening is well
formed. -/
def wfDoc (doc : ValueDict) : Bool :=
  hasKeys doc requiredKeys &&
  (match dget doc "settings_schema" with
   | some (.vdict sd) => wfFlat (flatten_schema sd)
   | _ => false)

/-- A well-formed settings document for the slug `"m"` holding the given
schema; used by the concrete witnesses. -/
def mkDoc (schema : ValueDict) : ValueDict :=
  .cons "model_slug" (.vstr "m") (.cons "model_name" (.vstr "M")
    (.cons "version" (.vstr "1") (.cons "settings_schema" (.vdict schema)
    (.cons "ui_layout" (.vdict .nil) (.cons "pricing" (.vdict .nil)
    (.cons "estimated_time" (.vstr "1m")
    (.cons "is_active" (.vbool true) .nil)))))))

/-- A range field definition with the given inclusive bounds. -/
def rangeCfg (mn mx : Int) : ValueDict :=
  .cons "type" (.vstr "range") (.cons "min" (.vint mn)
    (.cons "max" (.vint mx) .nil))

/-- The spec's example range field `{type: "range", min: 5, max: 20}`. -/
def rangeCfg520 : ValueDict := rangeCfg 5 20

/-- A text field whose `validation.max_length` is present and zero. -/
def cfgC6 : ValueDict :=
  .cons "type" (.vstr "text")
    (.cons "validation" (.vdict (.cons "max_length" (.vint 0) .nil)) .nil)

def storeC6 : Store := [mkDoc (.cons "f" (.vdict cfgC6) .nil)]

/-- A range field whose default 3 violates its own `min: 5`. -/
def cfgC10 : ValueDict :=
  .cons "type" (.vstr "range") (.cons "min" (.vint 5)
    (.cons "max" (.vint 20) (.cons "default" (.vint 3) .nil)))

def schemaC10 : ValueDict := .cons "f" (.vdict cfgC10) .nil

def storeC10 : Store := [mkDoc schemaC10]

/-- Result of validating the empty input against `storeC10`. -/
def rC10 : ValidationResult := ⟨true, [], .cons "f" (.vint 3) .nil⟩

/-- A required textarea nested one group deep (path `basic.concept`). -/
def cfgC2 : ValueDict :=
  .cons "type" (.vstr "textarea") (.cons "required" (.vbool true) .nil)

def schemaC2 : ValueDict :=
  .cons "basic" (.vdict (.cons "concept" (.vdict cfgC2) .nil)) .nil

def storeC2 : Store := [mkDoc schemaC2]

/-- Result of validating the empty input against `storeC2`. -/
def rC2 : ValidationResult := ⟨false, [requiredMsg "basic.concept"], .nil⟩

/-- The spec's default-substitution example: a non-required range field
at `structure.chapters_count` with `default: 10`. -/
def cfgC5 : ValueDict :=
  .cons "type" (.vstr "range") (.cons "min" (.vint 1)
    (.cons "max" (.vint 100) (.cons "default" (.vint 10) .nil)))

def schemaC5 : ValueDict :=
  .cons "structure" (.vdict (.cons "chapters_count" (.vdict cfgC5) .nil)) .nil

def storeC5 : Store := [mkDoc schemaC5]

/-- Result of validating the empty input against `storeC5`. -/
def rC5 : ValidationResult :=
  ⟨true, [],
    .cons "structure" (.vdict (.cons "chapters_count" (.vint 10) .nil)) .nil⟩

/-- A required text field at `prompt`, plus an optional defaulted field. -/
def storeC1 : Store :=
  [mkDoc (.cons "prompt" (.vdict (.cons "type" (.vstr "text")
    (.cons "required" (.vbool true) .nil))) .nil)]

/-- A text field with positive length bounds 2 and 4. -/
def cfgC6b : ValueDict :=
  .cons "type" (.vstr "text")
    (.cons "validation" (.vdict (.cons "min_length" (.vint 2)
      (.cons "max_length" (.vint 4) .nil))) .nil)

/-- C3's failing store: a document for `long-form-book` exists. -/
def storeC3 : Store :=
  [.cons "model_slug" (.vstr "long-form-book")
    (.cons "is_active" (.vbool true) .nil)]

/-- The leaf test of `_flatten_schema`: a node is a field definition iff
it is a dict containing the key `"type"`. -/
def isLeafVal : Value → Bool
  | .vdict c => dcontains c "type"
  | _ => false

/-- A flat two-field schema, used to witness flatten idempotence. -/
def flatSchemaW : ValueDict :=
  .cons "a" (.vdict (.cons "type" (.vstr "text") .nil))
    (.cons "b" (.vdict (.cons "type" (.vstr "range") .nil)) .nil)

/-- An input supplying an explicit `null` at key `f`. -/
def inputC9 : ValueDict := .cons "f" .vnull .nil

/-! ## Theorems -/

/-- List-style induction for `ValueDict` (the mutual recursor has
several motives, so the `induction` tactic needs this eliminator). -/
@[induction_eliminator]
theorem dictInd {motive : ValueDict → Prop} (nil : motive .nil)
    (cons : ∀ (k : String) (v : Value) (rest : ValueDict),
      motive rest → motive (.cons k v rest)) :
    ∀ d, motive d
  | .nil => nil
  | .cons k v rest => cons k v rest (dictInd nil cons rest)

/-- List-style induction for `ValueList`. -/
@[induction_eliminator]
theorem listInd {motive : ValueList → Prop} (nil : motive .nil)
    (cons : ∀ (v : Value) (rest : ValueList),
      motive rest → motive (.cons v rest)) :
    ∀ l, motive l
  | .nil => nil
  | .cons v rest => cons v rest (listInd nil cons rest)

theorem toList_inj : ∀ {a b : ValueDict}, a.toList = b.toList → a = b := by
  intro a
  induction a with
  | nil =>
      intro b h
      cases b with
      | nil => rfl
      | cons k v rest => simp [ValueDict.toList] at h
  | cons k v rest ih =>
      intro b h
      cases b with
      | nil => simp [ValueDict.toList] at h
      | cons k' v' rest' =>
          simp only [ValueDict.toList, List.cons.injEq, Prod.mk.injEq] at h
          obtain ⟨⟨h1, h2⟩, h3⟩ := h
          rw [h1, h2, ih h3]

theorem dget_dset_self (d : ValueDict) (k : String) (v : Value) :
    dget (dset d k v) k = some v := by
  induction d with
  | nil => simp [ValueDict.dset, ValueDict.dget]
  | cons k' v' rest ih =>
      by_cases h : k' = k
      · subst h; simp [ValueDict.dset, ValueDict.dget]
      · simp [ValueDict.dset, ValueDict.dget, h, ih]

theorem dget_dset_ne (d : ValueDict) (k k' : String) (v : Value)
    (h : k' ≠ k) : dget (dset d k v) k' = dget d k' := by
  have h2 : k ≠ k' := Ne.symm h
  induction d with
  | nil => simp [ValueDict.dset, ValueDict.dget, h2]
  | cons k2 v2 rest ih =>
      by_cases hk : k2 = k
      · subst hk
        simp [ValueDict.dset, ValueDict.dget, h2]
      · simp [ValueDict.dset, ValueDict.dget, hk, ih]

theorem dget_none_iff (d : ValueDict) (k : String) :
    dget d k = none ↔ k ∉ d.toList.map Prod.fst := by
  induction d with
  | nil => simp [ValueDict.dget, ValueDict.toList]
  | cons k' v rest ih =>
      by_cases h : k' = k
      · subst h; simp [ValueDict.dget, ValueDict.toList]
      · simp [ValueDict.dget, ValueDict.toList, h, ih, Ne.symm h]

theorem dset_toList_append (d : ValueDict) (k : String) (v : Value)
    (h : dget d k = none) : (dset d k v).toList = d.toList ++ [(k, v)] := by
  induction d with
  | nil => simp [ValueDict.dset, ValueDict.toList]
  | cons k' v' rest ih =>
      by_cases h2 : k' = k
      · subst h2; simp [ValueDict.dget] at h
      · simp [ValueDict.dget, h2] at h
        simp [ValueDict.dset, ValueDict.toList, h2, ih h]

theorem dget_dupdate_none (u : ValueDict) (k : String) :
    ∀ acc : ValueDict, dget u k = none →
      dget (dupdate acc u) k = dget acc k := by
  induction u with
  | nil => intro acc _; rfl
  | cons ku vu rest ih =>
      intro acc h
      by_cases h2 : ku = k
      · subst h2; simp [ValueDict.dget] at h
      · simp [ValueDict.dget, h2] at h
        rw [ValueDict.dupdate, ih _ h, dget_dset_ne _ _ _ _ (Ne.symm h2)]

theorem dupdate_toList_append (u : ValueDict) :
    ∀ acc : ValueDict, (u.toList.map Prod.fst).Nodup →
      (∀ k ∈ u.toList.map Prod.fst, dget acc k = none) →
      (dupdate acc u).toList = acc.toList ++ u.toList := by
  induction u with
  | nil => intro acc _ _; simp [ValueDict.dupdate, ValueDict.toList]
  | cons ku vu rest ih =>
      intro acc hnd hdisj
      simp only [ValueDict.toList, List.map_cons, List.nodup_cons] at hnd
      have hk : dget acc ku = none := by
        apply hdisj; simp [ValueDict.toList]
      have hrest : ∀ k ∈ rest.toList.map Prod.fst, dget (dset acc ku vu) k = none := by
        intro k hkmem
        have hne : k ≠ ku := fun hh => hnd.1 (hh ▸ hkmem)
        rw [dget_dset_ne _ _ _ _ hne]
        apply hdisj; simp [ValueDict.toList, hkmem]
      rw [ValueDict.dupdate, ih _ hnd.2 hrest, dset_toList_append _ _ _ hk]
      simp [ValueDict.toList]

theorem flattenInto_toList (entries : ValueDict) (pre : String)
    (acc : ValueDict)
    (hnd : ((flattenSpec entries pre).map Prod.fst).Nodup)
    (hdisj : ∀ k ∈ (flattenSpec entries pre).map Prod.fst, dget acc k = none) :
    (flattenInto acc entries pre).toList = acc.toList ++ flattenSpec entries pre := by
  match entries, hnd, hdisj with
  | .nil, hnd, hdisj => simp [flattenInto, flattenSpec]
  | .cons k v rest, hnd, hdisj =>
      cases v with
      | vdict sub =>
          by_cases hleaf : dcontains sub "type" = true
          · simp only [flattenInto, flattenSpec, hleaf, eq_self_iff_true,
              ite_true, if_true] at hnd hdisj ⊢
            simp only [List.map_cons, List.singleton_append, List.nodup_cons] at hnd
            have hk : dget acc (if pre == "" then k else pre ++ "." ++ k) = none := by
              apply hdisj; simp
            have hrest : ∀ k' ∈ (flattenSpec rest pre).map Prod.fst,
                dget (dset acc (if pre == "" then k else pre ++ "." ++ k)
                  (.vdict sub)) k' = none := by
              intro k' hmem
              have hne : k' ≠ (if pre == "" then k else pre ++ "." ++ k) :=
                fun hh => hnd.1 (hh ▸ hmem)
              rw [dget_dset_ne _ _ _ _ hne]
              apply hdisj; simp [hmem]
            rw [flattenInto_toList rest pre _ hnd.2 hrest,
              dset_toList_append _ _ _ hk]
            simp
          · have hleaf2 : dcontains sub "type" = false := by
              simpa using hleaf
            simp only [flattenInto, flattenSpec, hleaf2, Bool.false_eq_true,
              ite_false, if_false] at hnd hdisj ⊢
            simp only [flattenSpecGroup, List.map_append, List.nodup_append] at hnd hdisj
            obtain ⟨hndPiece, hndRest, hndDisj⟩ := hnd
            have hInner := flattenInto_toList sub
              (if pre == "" then k else pre ++ "." ++ k) .nil hndPiece
              (fun k' _ => rfl)
            have hUpd : (dupdate acc (flattenGroup (.vdict sub)
                (if pre == "" then k else pre ++ "." ++ k))).toList
                = acc.toList ++ flattenSpec sub (if pre == "" then k else pre ++ "." ++ k) := by
              rw [flattenGroup]
              have h1 : (flattenInto .nil sub
                  (if pre == "" then k else pre ++ "." ++ k)).toList
                  = flattenSpec sub (if pre == "" then k else pre ++ "." ++ k) := by
                rw [hInner]; rfl
              rw [dupdate_toList_append _ _ (by rw [h1]; exact hndPiece)
                (by
                  rw [h1]
                  intro k' hmem
                  exact hdisj k' (List.mem_append.mpr (Or.inl hmem)))]
              rw [h1]
            have hrest : ∀ k' ∈ (flattenSpec rest pre).map Prod.fst,
                dget (dupdate acc (flattenGroup (.vdict sub)
                  (if pre == "" then k else pre ++ "." ++ k))) k' = none := by
              intro k' hmem
              have hnotin : dget (flattenGroup (.vdict sub)
                  (if pre == "" then k else pre ++ "." ++ k)) k' = none := by
                rw [dget_none_iff, flattenGroup]
                intro hmem2
                have h1 : (flattenInto .nil sub
                    (if pre == "" then k else pre ++ "." ++ k)).toList
                    = flattenSpec sub (if pre == "" then k else pre ++ "." ++ k) := by
                  rw [hInner]; rfl
                rw [h1] at hmem2
                exact hndDisj hmem2 hmem
              rw [dget_dupdate_none _ _ _ hnotin]
              exact hdisj k' (List.mem_append.mpr (Or.inr hmem))
            rw [flattenInto_toList rest pre _ hndRest hrest, hUpd]
            simp [flattenSpecGroup]
      | vnull =>
          simp only [flattenInto, flattenSpec, List.nil_append] at hnd hdisj ⊢
          exact flattenInto_toList rest pre acc hnd hdisj
      | vbool b =>
          simp only [flattenInto, flattenSpec, List.nil_append] at hnd hdisj ⊢
          exact flattenInto_toList rest pre acc hnd hdisj
      | vint n =>
          simp only [flattenInto, flattenSpec, List.nil_append] at hnd hdisj ⊢
          exact flattenInto_toList rest pre acc hnd hdisj
      | vstr s =>
          simp only [flattenInto, flattenSpec, List.nil_append] at hnd hdisj ⊢
          exact flattenInto_toList rest pre acc hnd hdisj
      | vlist l =>
          simp only [flattenInto, flattenSpec, List.nil_append] at hnd hdisj ⊢
          exact flattenInto_toList rest pre acc hnd hdisj
termination_by sizeOf entries

theorem flattenSpec_flat (sd : ValueDict)
    (h : ∀ e ∈ sd.toList, isLeafVal e.2 = true) :
    flattenSpec sd "" = sd.toList := by
  induction sd with
  | nil => simp [flattenSpec, ValueDict.toList]
  | cons k v rest ih =>
      have h1 : isLeafVal v = true := h (k, v) (by simp [ValueDict.toList])
      have h2 : ∀ e ∈ rest.toList, isLeafVal e.2 = true :=
        fun e he => h e (by simp [ValueDict.toList, he])
      cases v with
      | vdict sub =>
          simp only [isLeafVal] at h1
          rw [flattenSpec]
          simp [h1, ih h2, ValueDict.toList]
      | vnull => simp [isLeafVal] at h1
      | vbool b => simp [isLeafVal] at h1
      | vint n => simp [isLeafVal] at h1
      | vstr s => simp [isLeafVal] at h1
      | vlist l => simp [isLeafVal] at h1

/-- C8: flattening is idempotent on already-flat schemas — for a
single-level schema whose every value is a dict containing `"type"`,
`_flatten_schema` returns it unchanged — and, more generally, the
source's accumulator implementation agrees with the specification's
recursion rule (`flattenSpec`: a node is emitted as a leaf at its dotted
path iff it is a mapping containing the key `"type"`, and otherwise, if
a mapping, is recursed into with path `prefix + "." + key`), whenever
the emitted dotted paths are distinct. -/
theorem claim_C8 (sd : ValueDict) :
    ((sd.toList.map Prod.fst).Nodup →
      (∀ e ∈ sd.toList, isLeafVal e.2 = true) →
      flatten_schema sd = sd) ∧
    (((flattenSpec sd "").map Prod.fst).Nodup →
      (flatten_schema sd).toList = flattenSpec sd "") := by
  constructor
  · intro hnd hleaf
    have hs := flattenSpec_flat sd hleaf
    have h2 := flattenInto_toList sd "" .nil (by rw [hs]; exact hnd)
      (fun k _ => rfl)
    apply toList_inj
    rw [flatten_schema, h2, hs]
    rfl
  · intro hnd
    have h2 := flattenInto_toList sd "" .nil hnd (fun k _ => rfl)
    rw [flatten_schema, h2]
    rfl

/-- C8 witness: the theorem applied at the concrete flat schema
`{a: {type: text}, b: {type: range}}`, which flattens to itself, and at
the nested schema of `storeC5`, whose flattening agrees with the spec's
recursion rule. -/
theorem claim_C8_witness :
    flatten_schema flatSchemaW = flatSchemaW ∧
    (flatten_schema (.cons "structure"
        (.vdict (.cons "chapters_count" (.vdict cfgC5) .nil)) .nil)).toList
      = flattenSpec (.cons "structure"
        (.vdict (.cons "chapters_count" (.vdict cfgC5) .nil)) .nil) "" := by
  exact ⟨(claim_C8 flatSchemaW).1 (by decide)
      (by simp [flatSchemaW, ValueDict.toList, isLeafVal,
        ValueDict.dcontains, ValueDict.dget]),
    (claim_C8 _).2 (by decide)⟩

theorem splitChars_ne_nil (cs : List Char) : splitChars cs ≠ [] := by
  induction cs with
  | nil => simp [splitChars]
  | cons c rest ih =>
      cases h : splitChars rest with
      | nil => exact absurd h ih
      | cons s t =>
          simp only [splitChars, h]
          split <;> simp

theorem getNested_nil (path : String) :
    get_nested_value .nil path = .vnull := by
  rw [get_nested_value]
  cases h : splitPath path with
  | nil => exact absurd h (splitChars_ne_nil _)
  | cons s t => simp [getNestedKeys, ValueDict.dget]

theorem setNestedKeys_nil (d : ValueDict) (v : Value) :
    setNestedKeys d [] v = .error (.indexError "list index out of range") := rfl

theorem setNestedKeys_one (d : ValueDict) (k : String) (v : Value) :
    setNestedKeys d [k] v = .ok (dset d k v) := rfl

theorem setNestedKeys_cons2 (d : ValueDict) (k r : String) (rs : List String)
    (v : Value) :
    setNestedKeys d (k :: r :: rs) v
      = (match dgetD d k (.vdict .nil) with
         | .vdict sub =>
             (match setNestedKeys sub (r :: rs) v with
              | .ok sub2 => .ok (dset d k (.vdict sub2))
              | .error e => .error e)
         | _ => .error (.typeError "argument is not a dict")) := rfl

theorem getNestedKeys_nilKeys (v : Value) : getNestedKeys v [] = v := by
  cases v <;> rfl

theorem getNestedKeys_cons (d : ValueDict) (k : String) (rest : List String) :
    getNestedKeys (.vdict d) (k :: rest)
      = (match dget d k with
         | some v => getNestedKeys v rest
         | none => .vnull) := rfl

theorem setNested_get :
    ∀ (ks : List String) (d d2 : ValueDict) (v : Value),
      setNestedKeys d ks v = .ok d2 → getNestedKeys (.vdict d2) ks = v := by
  intro ks
  induction ks with
  | nil => intro d d2 v h; simp [setNestedKeys_nil] at h
  | cons k rest ih =>
      intro d d2 v h
      cases rest with
      | nil =>
          rw [setNestedKeys_one] at h
          simp only [Except.ok.injEq] at h
          subst h
          simp [getNestedKeys_cons, getNestedKeys_nilKeys, dget_dset_self]
      | cons r rs =>
          rw [setNestedKeys_cons2] at h
          cases hc : dgetD d k (.vdict .nil) with
          | vdict sub =>
              simp only [hc] at h
              cases hs : setNestedKeys sub (r :: rs) v with
              | ok sub2 =>
                  simp only [hs, Except.ok.injEq] at h
                  subst h
                  simp [getNestedKeys_cons, dget_dset_self, ih _ _ _ hs]
              | error e => simp [hs] at h
          | vnull => simp [hc] at h
          | vbool b => simp [hc] at h
          | vint n => simp [hc] at h
          | vstr s => simp [hc] at h
          | vlist l => simp [hc] at h

theorem setOk_nilKeys (d : ValueDict) : setOk d [] = true := by
  cases d <;> rfl

theorem setOk_one (d : ValueDict) (k : String) : setOk d [k] = true := by
  cases d <;> rfl

theorem setOk_cons2 (d : ValueDict) (k r : String) (rs : List String) :
    setOk d (k :: r :: rs)
      = (match dget d k with
         | none => true
         | some (.vdict sub) => setOk sub (r :: rs)
         | some _ => false) := rfl

theorem setOk_empty : ∀ p : List String, setOk .nil p = true
  | [] => rfl
  | [_] => rfl
  | _ :: _ :: _ => rfl

theorem getNested_empty : ∀ (p : List String), p ≠ [] →
    getNestedKeys (.vdict .nil) p = .vnull
  | [], h => absurd rfl h
  | _ :: _, _ => rfl

theorem prefix_cons_mp {α : Type} {a : α} {l1 l2 : List α}
    (h : a :: l1 <+: a :: l2) : l1 <+: l2 := by
  obtain ⟨t, ht⟩ := h
  exact ⟨t, by simpa using ht⟩

theorem prefix_cons_mpr {α : Type} {a : α} {l1 l2 : List α}
    (h : l1 <+: l2) : a :: l1 <+: a :: l2 := by
  obtain ⟨t, ht⟩ := h
  exact ⟨t, by simp [ht]⟩

theorem setOk_set :
    ∀ (p : List String) (d : ValueDict) (v : Value), setOk d p = true →
      p ≠ [] → ∃ d2, setNestedKeys d p v = .ok d2 := by
  intro p
  induction p with
  | nil => intro d v _ h; exact absurd rfl h
  | cons k rest ih =>
      intro d v hok _
      cases rest with
      | nil => exact ⟨dset d k v, setNestedKeys_one d k v⟩
      | cons r rs =>
          rw [setOk_cons2] at hok
          cases hd : dget d k with
          | none =>
              obtain ⟨sub2, hs⟩ := ih .nil v (setOk_empty _) (by simp)
              refine ⟨dset d k (.vdict sub2), ?_⟩
              rw [setNestedKeys_cons2]
              simp [ValueDict.dgetD, hd, hs]
          | some w =>
              rw [hd] at hok
              cases w with
              | vdict sub =>
                  obtain ⟨sub2, hs⟩ := ih sub v hok (by simp)
                  refine ⟨dset d k (.vdict sub2), ?_⟩
                  rw [setNestedKeys_cons2]
                  simp [ValueDict.dgetD, hd, hs]
              | vnull => simp at hok
              | vbool b => simp at hok
              | vint n => simp at hok
              | vstr s => simp at hok
              | vlist l => simp at hok

theorem setOk_preserve :
    ∀ (q : List String) (d d2 : ValueDict) (v : Value) (p : List String),
      setNestedKeys d q v = .ok d2 → setOk d p = true →
      ¬ q <+: p → setOk d2 p = true := by
  intro q
  induction q with
  | nil => intro d d2 v p h; rw [setNestedKeys_nil] at h; simp at h
  | cons k qrest ih =>
      intro d d2 v p h hok hpre
      cases qrest with
      | nil =>
          rw [setNestedKeys_one] at h
          simp only [Except.ok.injEq] at h
          subst h
          cases p with
          | nil => exact setOk_nilKeys _
          | cons p1 prest =>
              cases prest with
              | nil => exact setOk_one _ _
              | cons p2 ps =>
                  by_cases hkp : p1 = k
                  · exact absurd (hkp ▸ ⟨p2 :: ps, rfl⟩) hpre
                  · rw [setOk_cons2, dget_dset_ne _ _ _ _ hkp]
                    rw [setOk_cons2] at hok
                    exact hok
      | cons q2 qs =>
          rw [setNestedKeys_cons2] at h
          cases hc : dgetD d k (.vdict .nil) with
          | vdict sub =>
              simp only [hc] at h
              cases hs : setNestedKeys sub (q2 :: qs) v with
              | ok sub2 =>
                  simp only [hs, Except.ok.injEq] at h
                  subst h
                  cases p with
                  | nil => exact setOk_nilKeys _
                  | cons p1 prest =>
                      cases prest with
                      | nil => exact setOk_one _ _
                      | cons p2 ps =>
                          by_cases hkp : p1 = k
                          · subst hkp
                            rw [setOk_cons2, dget_dset_self]
                            have hpre2 : ¬ (q2 :: qs) <+: (p2 :: ps) :=
                              fun hh => hpre (prefix_cons_mpr hh)
                            rw [setOk_cons2] at hok
                            cases hd : dget d p1 with
                            | none =>
                                have hsub : sub = .nil := by
                                  rw [ValueDict.dgetD, hd] at hc
                                  simpa using hc.symm
                                subst hsub
                                exact ih .nil sub2 v (p2 :: ps) hs
                                  (setOk_empty _) hpre2
                            | some w =>
                                rw [hd] at hok
                                cases w with
                                | vdict s =>
                                    have hsub : sub = s := by
                                      rw [ValueDict.dgetD, hd] at hc
                                      simpa using hc.symm
                                    subst hsub
                                    exact ih _ sub2 v (p2 :: ps) hs hok hpre2
                                | vnull => simp at hok
                                | vbool b => simp at hok
                                | vint n => simp at hok
                                | vstr s => simp at hok
                                | vlist l => simp at hok
                          · rw [setOk_cons2, dget_dset_ne _ _ _ _ hkp]
                            rw [setOk_cons2] at hok
                            exact hok
              | error e => simp [hs] at h
          | vnull => simp [hc] at h
          | vbool b => simp [hc] at h
          | vint n => simp [hc] at h
          | vstr s => simp [hc] at h
          | vlist l => simp [hc] at h

theorem getNested_preserve :
    ∀ (q : List String) (d d2 : ValueDict) (v : Value) (p : List String),
      setNestedKeys d q v = .ok d2 → ¬ q <+: p → ¬ p <+: q →
      getNestedKeys (.vdict d2) p = getNestedKeys (.vdict d) p := by
  intro q
  induction q with
  | nil => intro d d2 v p h; rw [setNestedKeys_nil] at h; simp at h
  | cons k qrest ih =>
      intro d d2 v p h hqp hpq
      cases p with
      | nil => exact absurd ⟨k :: qrest, rfl⟩ hpq
      | cons p1 prest =>
          cases qrest with
          | nil =>
              rw [setNestedKeys_one] at h
              simp only [Except.ok.injEq] at h
              subst h
              by_cases hkp : p1 = k
              · subst hkp
                exact absurd ⟨prest, rfl⟩ hqp
              · rw [getNestedKeys_cons, getNestedKeys_cons,
                  dget_dset_ne _ _ _ _ hkp]
          | cons q2 qs =>
              rw [setNestedKeys_cons2] at h
              cases hc : dgetD d k (.vdict .nil) with
              | vdict sub =>
                  simp only [hc] at h
                  cases hs : setNestedKeys sub (q2 :: qs) v with
                  | ok sub2 =>
                      simp only [hs, Except.ok.injEq] at h
                      subst h
                      by_cases hkp : p1 = k
                      · subst hkp
                        rw [getNestedKeys_cons, getNestedKeys_cons,
                          dget_dset_self]
                        have hqp2 : ¬ (q2 :: qs) <+: prest :=
                          fun hh => hqp (prefix_cons_mpr hh)
                        have hpq2 : ¬ prest <+: (q2 :: qs) :=
                          fun hh => hpq (prefix_cons_mpr hh)
                        have hne : prest ≠ [] := by
                          intro hh; subst hh
                          exact hpq2 ⟨q2 :: qs, rfl⟩
                        cases hd : dget d p1 with
                        | none =>
                            have hsub : sub = .nil := by
                              rw [ValueDict.dgetD, hd] at hc
                              simpa using hc.symm
                            subst hsub
                            show getNestedKeys (.vdict sub2) prest = .vnull
                            rw [ih .nil sub2 v prest hs hqp2 hpq2]
                            exact getNested_empty prest hne
                        | some w =>
                            cases w with
                            | vdict s =>
                                have hsub : sub = s := by
                                  rw [ValueDict.dgetD, hd] at hc
                                  simpa using hc.symm
                                subst hsub
                                exact ih _ sub2 v prest hs hqp2 hpq2
                            | vnull =>
                                rw [ValueDict.dgetD, hd] at hc; simp at hc
                            | vbool b =>
                                rw [ValueDict.dgetD, hd] at hc; simp at hc
                            | vint n =>
                                rw [ValueDict.dgetD, hd] at hc; simp at hc
                            | vstr s =>
                                rw [ValueDict.dgetD, hd] at hc; simp at hc
                            | vlist l =>
                                rw [ValueDict.dgetD, hd] at hc; simp at hc
                      · rw [getNestedKeys_cons, getNestedKeys_cons,
                          dget_dset_ne _ _ _ _ hkp]
                  | error e => simp [hs] at h
              | vnull => simp [hc] at h
              | vbool b => simp [hc] at h
              | vint n => simp [hc] at h
              | vstr s => simp [hc] at h
              | vlist l => simp [hc] at h

theorem minErrs_ok (cfg : ValueDict) (path : String) (n : Int)
    (h : wfBound cfg "min" = true) :
    ∃ es, minErrs cfg path n = .ok es := by
  rw [wfBound] at h
  rw [minErrs]
  cases hd : dget cfg "min" with
  | none => exact ⟨[], rfl⟩
  | some bv =>
      rw [hd] at h
      cases bv with
      | vnull => exact ⟨[], rfl⟩
      | vint m => exact ⟨_, rfl⟩
      | vbool b => exact ⟨_, rfl⟩
      | vstr s => simp [toNum] at h
      | vlist l => simp [toNum] at h
      | vdict d => simp [toNum] at h

theorem maxErrs_ok (cfg : ValueDict) (path : String) (n : Int)
    (h : wfBound cfg "max" = true) :
    ∃ es, maxErrs cfg path n = .ok es := by
  rw [wfBound] at h
  rw [maxErrs]
  cases hd : dget cfg "max" with
  | none => exact ⟨[], rfl⟩
  | some bv =>
      rw [hd] at h
      cases bv with
      | vnull => exact ⟨[], rfl⟩
      | vint m => exact ⟨_, rfl⟩
      | vbool b => exact ⟨_, rfl⟩
      | vstr s => simp [toNum] at h
      | vlist l => simp [toNum] at h
      | vdict d => simp [toNum] at h

theorem optValuesList_strings :
    ∀ l : ValueList, wfOptions l = true →
      ∃ ss : List String, optValuesList l = .ok (ss.map Value.vstr) := by
  intro l
  induction l with
  | nil => intro _; exact ⟨[], rfl⟩
  | cons o rest ih =>
      intro h
      simp only [wfOptions, Bool.and_eq_true] at h
      obtain ⟨ss, hss⟩ := ih h.2
      have h1 := h.1
      cases o with
      | vdict d =>
          simp only [wfOption] at h1
          cases hv : dget d "value" with
          | none => rw [hv] at h1; simp at h1
          | some w =>
              rw [hv] at h1
              cases w with
              | vstr s =>
                  refine ⟨s :: ss, ?_⟩
                  rw [optValuesList, optValue, hv, hss]
                  rfl
              | vnull => simp at h1
              | vbool b => simp at h1
              | vint n => simp at h1
              | vlist l2 => simp at h1
              | vdict d2 => simp at h1
      | vnull => simp [wfOption] at h1
      | vbool b => simp [wfOption] at h1
      | vint n => simp [wfOption] at h1
      | vstr s => simp [wfOption] at h1
      | vlist l2 => simp [wfOption] at h1

theorem joinStrs_ok :
    ∀ ss : List String, ∃ j, joinStrs (ss.map Value.vstr) = .ok j := by
  intro ss
  induction ss with
  | nil => exact ⟨"", rfl⟩
  | cons s rest ih =>
      cases rest with
      | nil => exact ⟨s, rfl⟩
      | cons s2 rs =>
          obtain ⟨j, hj⟩ := ih
          refine ⟨s ++ ", " ++ j, ?_⟩
          show (match joinStrs ((s2 :: rs).map Value.vstr) with
            | Except.ok r => Except.ok (s ++ ", " ++ r)
            | Except.error e => Except.error e) = _
          rw [hj]

theorem optionValues_ok (cfg : ValueDict)
    (h : (match dget cfg "options" with
          | none => true
          | some (.vlist l) => wfOptions l
          | some _ => false) = true) :
    ∃ ss : List String,
      optionValues (dgetD cfg "options" (.vlist .nil)) = .ok (ss.map Value.vstr) := by
  cases hd : dget cfg "options" with
  | none =>
      refine ⟨[], ?_⟩
      rw [ValueDict.dgetD, hd]
      rfl
  | some w =>
      rw [hd] at h
      cases w with
      | vlist l =>
          obtain ⟨ss, hss⟩ := optValuesList_strings l h
          refine ⟨ss, ?_⟩
          rw [ValueDict.dgetD, hd]
          exact hss
      | vnull => simp at h
      | vbool b => simp at h
      | vint n => simp at h
      | vstr s => simp at h
      | vdict d => simp at h

theorem minLenErrs_ok (vd : ValueDict) (path : String) (len : Nat)
    (h : wfLen vd "min_length" = true) :
    ∃ es, minLenErrs vd path len = .ok es := by
  cases hd : dget vd "min_length" with
  | none => exact ⟨[], by rw [minLenErrs, hd]⟩
  | some lv =>
      simp only [wfLen, hd] at h
      cases ht : truthy lv with
      | false => exact ⟨[], by simp [minLenErrs, hd, ht]⟩
      | true =>
          rw [ht] at h
          simp only [Bool.not_true, Bool.false_or] at h
          cases hn : toNum lv with
          | none => rw [hn] at h; simp at h
          | some m =>
              exact ⟨if (len : Int) < m then [atLeastCharsMsg path (pyStr lv)] else [],
                by simp [minLenErrs, hd, ht, hn]⟩

theorem maxLenErrs_ok (vd : ValueDict) (path : String) (len : Nat)
    (h : wfLen vd "max_length" = true) :
    ∃ es, maxLenErrs vd path len = .ok es := by
  cases hd : dget vd "max_length" with
  | none => exact ⟨[], by rw [maxLenErrs, hd]⟩
  | some lv =>
      simp only [wfLen, hd] at h
      cases ht : truthy lv with
      | false => exact ⟨[], by simp [maxLenErrs, hd, ht]⟩
      | true =>
          rw [ht] at h
          simp only [Bool.not_true, Bool.false_or] at h
          cases hn : toNum lv with
          | none => rw [hn] at h; simp at h
          | some m =>
              exact ⟨if (len : Int) > m then [atMostCharsMsg path (pyStr lv)] else [],
                by simp [maxLenErrs, hd, ht, hn]⟩

theorem validate_field_ok (path : String) (value : Value) (cfg : ValueDict)
    (hwf : wfFieldCfg cfg = true) :
    ∃ errs, validate_field path value cfg = .ok errs := by
  simp only [wfFieldCfg, Bool.and_eq_true] at hwf
  obtain ⟨⟨⟨hmin, hmax⟩, hopt⟩, hval⟩ := hwf
  unfold validate_field
  by_cases hr : valueBeq (dgetD cfg "type" (.vstr "text")) (.vstr "range") = true
  · simp only [hr, ite_true]
    cases ht : toNum value with
    | none => exact ⟨_, rfl⟩
    | some n =>
        obtain ⟨e1, he1⟩ := minErrs_ok cfg path n hmin
        obtain ⟨e2, he2⟩ := maxErrs_ok cfg path n hmax
        simp [he1, he2]
  · have hr' : valueBeq (dgetD cfg "type" (.vstr "text")) (.vstr "range") = false := by
      simpa using hr
    simp only [hr', Bool.false_eq_true, ite_false]
    by_cases hsel : valueBeq (dgetD cfg "type" (.vstr "text")) (.vstr "select") = true
    · simp only [hsel, ite_true]
      obtain ⟨ss, hss⟩ := optionValues_ok cfg hopt
      rw [hss]
      by_cases hin : pyIn value (ss.map Value.vstr) = true
      · simp [hin]
      · have hin' : pyIn value (ss.map Value.vstr) = false := by simpa using hin
        obtain ⟨j, hj⟩ := joinStrs_ok ss
        simp [hin', hj]
    · have hsel' : valueBeq (dgetD cfg "type" (.vstr "text")) (.vstr "select") = false := by
        simpa using hsel
      simp only [hsel', Bool.false_eq_true, ite_false]
      by_cases htx : (valueBeq (dgetD cfg "type" (.vstr "text")) (.vstr "text")
          || valueBeq (dgetD cfg "type" (.vstr "text")) (.vstr "textarea")) = true
      · simp only [htx, ite_true]
        cases value with
        | vstr s =>
            cases hvd : dget cfg "validation" with
            | none =>
                simp only [ValueDict.dgetD, hvd, Option.getD_none]
                exact ⟨[], rfl⟩
            | some w =>
                rw [hvd] at hval
                cases w with
                | vdict vd =>
                    simp only [Bool.and_eq_true] at hval
                    obtain ⟨e1, he1⟩ := minLenErrs_ok vd path s.length hval.1
                    obtain ⟨e2, he2⟩ := maxLenErrs_ok vd path s.length hval.2
                    simp only [ValueDict.dgetD, hvd, Option.getD_some]
                    simp [he1, he2]
                | vnull => simp at hval
                | vbool b => simp at hval
                | vint n => simp at hval
                | vstr s2 => simp at hval
                | vlist l => simp at hval
        | vnull => exact ⟨_, rfl⟩
        | vbool b => exact ⟨_, rfl⟩
        | vint n => exact ⟨_, rfl⟩
        | vlist l => exact ⟨_, rfl⟩
        | vdict d => exact ⟨_, rfl⟩
      · have htx' : (valueBeq (dgetD cfg "type" (.vstr "text")) (.vstr "text")
            || valueBeq (dgetD cfg "type" (.vstr "text")) (.vstr "textarea")) = false := by
          simpa using htx
        simp only [htx', Bool.false_eq_true, ite_false]
        by_cases hcb : valueBeq (dgetD cfg "type" (.vstr "text")) (.vstr "checkbox") = true
        · simp only [hcb, ite_true]
          cases value <;> exact ⟨_, rfl⟩
        · have hcb' : valueBeq (dgetD cfg "type" (.vstr "text")) (.vstr "checkbox") = false := by
            simpa using hcb
          simp only [hcb', Bool.false_eq_true, ite_false]
          exact ⟨[], rfl⟩

theorem splitPath_ne_nil (p : String) : splitPath p ≠ [] :=
  splitChars_ne_nil _

theorem noOverlapWith_spec :
    ∀ (l : List (List String)) (p q : List String),
      noOverlapWith p l = true → q ∈ l → ¬ p <+: q ∧ ¬ q <+: p := by
  intro l
  induction l with
  | nil => intro p q _ hq; simp at hq
  | cons x rest ih =>
      intro p q h hq
      simp only [noOverlapWith, Bool.and_eq_true] at h
      obtain ⟨⟨h1, h2⟩, h3⟩ := h
      rcases List.mem_cons.mp hq with hx | hx
      · subst hx
        refine ⟨fun hc => ?_, fun hc => ?_⟩
        · rw [(List.isPrefixOf_iff_prefix).mpr hc] at h1
          simp at h1
        · rw [(List.isPrefixOf_iff_prefix).mpr hc] at h2
          simp at h2
      · exact ih p q h3 hx

theorem processField_spec (input vd : ValueDict) (path : String)
    (cfg : ValueDict) (vd2 : ValueDict) (es : List String)
    (h : processField input vd path (.vdict cfg) = .ok (vd2, es)) :
    fieldErrs input path (.vdict cfg) = .ok es ∧
    ((∃ w, setNestedKeys vd (splitPath path) w = .ok vd2 ∧
        fieldWrite input path cfg = w)
      ∨ (vd2 = vd ∧ fieldWrite input path cfg = .vnull)) := by
  simp only [processField] at h
  by_cases hreq : (truthy (dgetD cfg "required" (.vbool false))
      && isNull (get_nested_value input path)) = true
  · rw [if_pos hreq] at h
    simp only [Except.ok.injEq, Prod.mk.injEq] at h
    obtain ⟨h1, h2⟩ := h
    subst h1
    subst h2
    refine ⟨?_, Or.inr ⟨rfl, ?_⟩⟩
    · simp only [fieldErrs]
      rw [if_pos hreq]
    · simp only [fieldWrite]
      rw [if_pos hreq]
  · rw [if_neg hreq] at h
    by_cases hnn : (!isNull (get_nested_value input path)) = true
    · rw [if_pos hnn] at h
      cases hvf : validate_field path (get_nested_value input path) cfg with
      | error e => simp [hvf] at h
      | ok ferrs =>
          simp only [hvf] at h
          by_cases hemp : ferrs.isEmpty = true
          · rw [if_pos hemp] at h
            cases hset : set_nested_value vd path (get_nested_value input path) with
            | ok vdw =>
                simp only [hset, Except.ok.injEq, Prod.mk.injEq] at h
                obtain ⟨h1, h2⟩ := h
                subst h1
                subst h2
                have hferrs : ferrs = [] := by simpa [List.isEmpty_iff] using hemp
                subst hferrs
                refine ⟨?_, Or.inl ⟨get_nested_value input path, hset, ?_⟩⟩
                · simp only [fieldErrs]
                  rw [if_neg hreq, if_pos hnn]
                  simp [hvf]
                · simp only [fieldWrite]
                  rw [if_neg hreq, if_pos hnn, hvf]
            | error e => simp [hset] at h
          · rw [if_neg hemp] at h
            simp only [Except.ok.injEq, Prod.mk.injEq] at h
            obtain ⟨h1, h2⟩ := h
            subst h1
            subst h2
            have hferrs : ferrs ≠ [] := by
              intro hh; rw [hh] at hemp; simp at hemp
            refine ⟨?_, Or.inr ⟨rfl, ?_⟩⟩
            · simp only [fieldErrs]
              rw [if_neg hreq, if_pos hnn]
              simp only [hvf]
              have hfe : ferrs.isEmpty = false := by simpa using hemp
              simp [hfe]
            · simp only [fieldWrite]
              rw [if_neg hreq, if_pos hnn, hvf]
              cases ferrs with
              | nil => exact absurd rfl hferrs
              | cons e es' => rfl
    · rw [if_neg hnn] at h
      cases hdef : dget cfg "default" with
      | some dv =>
          simp only [hdef] at h
          cases hset : set_nested_value vd path dv with
          | ok vdw =>
              simp only [hset, Except.ok.injEq, Prod.mk.injEq] at h
              obtain ⟨h1, h2⟩ := h
              subst h1
              subst h2
              refine ⟨?_, Or.inl ⟨dv, hset, ?_⟩⟩
              · simp only [fieldErrs]
                rw [if_neg hreq, if_neg hnn]
              · simp only [fieldWrite]
                rw [if_neg hreq, if_neg hnn, hdef]
                rfl
          | error e => simp [hset] at h
      | none =>
          simp only [hdef, Except.ok.injEq, Prod.mk.injEq] at h
          obtain ⟨h1, h2⟩ := h
          subst h1
          subst h2
          refine ⟨?_, Or.inr ⟨rfl, ?_⟩⟩
          · simp only [fieldErrs]
            rw [if_neg hreq, if_neg hnn]
          · simp only [fieldWrite]
            rw [if_neg hreq, if_neg hnn, hdef]
            rfl

theorem processField_ok (input vd : ValueDict) (path : String)
    (cfg : ValueDict) (hwf : wfFieldCfg cfg = true)
    (hset : setOk vd (splitPath path) = true) :
    ∃ out, processField input vd path (.vdict cfg) = .ok out := by
  simp only [processField]
  by_cases hreq : (truthy (dgetD cfg "required" (.vbool false))
      && isNull (get_nested_value input path)) = true
  · rw [if_pos hreq]; exact ⟨_, rfl⟩
  · rw [if_neg hreq]
    by_cases hnn : (!isNull (get_nested_value input path)) = true
    · rw [if_pos hnn]
      obtain ⟨ferrs, hvf⟩ :=
        validate_field_ok path (get_nested_value input path) cfg hwf
      simp only [hvf]
      by_cases hemp : ferrs.isEmpty = true
      · rw [if_pos hemp]
        obtain ⟨vdw, hw⟩ :=
          setOk_set (splitPath path) vd (get_nested_value input path) hset
            (splitPath_ne_nil path)
        simp only [set_nested_value, hw]
        exact ⟨_, rfl⟩
      · rw [if_neg hemp]
        exact ⟨_, rfl⟩
    · rw [if_neg hnn]
      cases hdef : dget cfg "default" with
      | some dv =>
          obtain ⟨vdw, hw⟩ :=
            setOk_set (splitPath path) vd dv hset (splitPath_ne_nil path)
          simp only [set_nested_value, hw]
          exact ⟨_, rfl⟩
      | none => exact ⟨_, rfl⟩

theorem processFields_ok :
    ∀ (entries : List (String × Value)) (input vd : ValueDict)
      (errs : List String),
      wfLeafEntries entries = true →
      noOverlap (pathsOf entries) = true →
      (∀ e ∈ entries, setOk vd (splitPath e.1) = true) →
      ∃ out, processFields input entries vd errs = .ok out := by
  intro entries
  induction entries with
  | nil => exact fun input vd errs _ _ _ => ⟨(vd, errs), rfl⟩
  | cons pc rest ih =>
      intro input vd errs hwf hno hset
      obtain ⟨path, config⟩ := pc
      simp only [wfLeafEntries, Bool.and_eq_true] at hwf
      obtain ⟨hw1, hw2⟩ := hwf
      simp only [pathsOf, List.map_cons, noOverlap, Bool.and_eq_true] at hno
      cases config with
      | vdict cfg =>
          obtain ⟨⟨vd2, es⟩, hpf⟩ := processField_ok input vd path cfg hw1
            (hset (path, .vdict cfg) (List.mem_cons_self _ _))
          rw [processFields, hpf]
          apply ih input vd2 (errs ++ es) hw2 hno.2
          intro e he
          rcases (processField_spec input vd path cfg vd2 es hpf).2 with
            ⟨w, hw, _⟩ | ⟨hid, _⟩
          · refine setOk_preserve (splitPath path) vd vd2 w (splitPath e.1)
              hw (hset e (List.mem_cons_of_mem _ he)) ?_
            exact (noOverlapWith_spec _ _ _ hno.1
              (List.mem_map_of_mem _ he)).1
          · rw [hid]
            exact hset e (List.mem_cons_of_mem _ he)
      | vnull => simp at hw1
      | vbool b => simp at hw1
      | vint n => simp at hw1
      | vstr s => simp at hw1
      | vlist l => simp at hw1

theorem ebind_ok {α β : Type} (a : α) (f : α → Except PyError β) :
    (Except.ok a >>= f) = f a := rfl

theorem ebind_err {α β : Type} (e : PyError) (f : α → Except PyError β) :
    ((Except.error e : Except PyError α) >>= f) = .error e := rfl

theorem processFields_errs :
    ∀ (entries : List (String × Value)) (input vd : ValueDict)
      (errs : List String) (vd' : ValueDict) (errs' : List String),
      processFields input entries vd errs = .ok (vd', errs') →
      ∃ tail, errs' = errs ++ tail := by
  intro entries
  induction entries with
  | nil =>
      intro input vd errs vd' errs' h
      simp only [processFields, Except.ok.injEq, Prod.mk.injEq] at h
      exact ⟨[], by rw [← h.2]; simp⟩
  | cons pc rest ih =>
      intro input vd errs vd' errs' h
      obtain ⟨path, config⟩ := pc
      rw [processFields] at h
      cases hpf : processField input vd path config with
      | error e => rw [hpf] at h; simp at h
      | ok out =>
          obtain ⟨vd2, es⟩ := out
          simp only [hpf] at h
          obtain ⟨tail, ht⟩ := ih input vd2 (errs ++ es) vd' errs' h
          exact ⟨es ++ tail, by rw [ht, List.append_assoc]⟩

theorem processFields_mem :
    ∀ (entries : List (String × Value)) (input vd : ValueDict)
      (errs : List String) (vd' : ValueDict) (errs' : List String)
      (p : String) (c : Value) (L : List String),
      processFields input entries vd errs = .ok (vd', errs') →
      (p, c) ∈ entries →
      (∀ vd0 : ValueDict, processField input vd0 p c = .ok (vd0, L)) →
      ∀ m ∈ L, m ∈ errs' := by
  intro entries
  induction entries with
  | nil => intro input vd errs vd' errs' p c L _ hmem; simp at hmem
  | cons pc rest ih =>
      intro input vd errs vd' errs' p c L h hmem hL
      obtain ⟨path, config⟩ := pc
      rw [processFields] at h
      rcases List.mem_cons.mp hmem with hhead | htail
      · have hpc : path = p ∧ config = c := by
          have := hhead.symm
          simp only [Prod.mk.injEq] at this
          exact this
        obtain ⟨hp, hc⟩ := hpc
        subst hp
        subst hc
        rw [hL vd] at h
        obtain ⟨tail, ht⟩ := processFields_errs rest input vd (errs ++ L)
          vd' errs' h
        intro m hm
        rw [ht]
        simp [hm]
      · cases hpf : processField input vd path config with
        | error e => rw [hpf] at h; simp at h
        | ok out =>
            obtain ⟨vd2, es⟩ := out
            simp only [hpf] at h
            exact ih input vd2 (errs ++ es) vd' errs' p c L h htail hL

theorem processFields_preserve :
    ∀ (entries : List (String × Value)) (input vd : ValueDict)
      (errs : List String) (vd' : ValueDict) (errs' : List String)
      (P : List String),
      processFields input entries vd errs = .ok (vd', errs') →
      (∀ e ∈ entries, ¬ splitPath e.1 <+: P ∧ ¬ P <+: splitPath e.1) →
      getNestedKeys (.vdict vd') P = getNestedKeys (.vdict vd) P := by
  intro entries
  induction entries with
  | nil =>
      intro input vd errs vd' errs' P h _
      simp only [processFields, Except.ok.injEq, Prod.mk.injEq] at h
      rw [h.1]
  | cons pc rest ih =>
      intro input vd errs vd' errs' P h hcond
      obtain ⟨path, config⟩ := pc
      rw [processFields] at h
      cases config with
      | vdict cfg =>
          cases hpf : processField input vd path (.vdict cfg) with
          | error e => rw [hpf] at h; simp at h
          | ok out =>
              obtain ⟨vd2, es⟩ := out
              simp only [hpf] at h
              have hstep : getNestedKeys (.vdict vd2) P
                  = getNestedKeys (.vdict vd) P := by
                rcases (processField_spec input vd path cfg vd2 es hpf).2 with
                  ⟨w, hw, _⟩ | ⟨hid, _⟩
                · exact getNested_preserve (splitPath path) vd vd2 w P hw
                    (hcond (path, .vdict cfg) (List.mem_cons_self _ _)).1
                    (hcond (path, .vdict cfg) (List.mem_cons_self _ _)).2
                · rw [hid]
              rw [← hstep]
              exact ih input vd2 (errs ++ es) vd' errs' P h
                (fun e he => hcond e (List.mem_cons_of_mem _ he))
      | vnull => simp [processField] at h
      | vbool b => simp [processField] at h
      | vint n => simp [processField] at h
      | vstr s => simp [processField] at h
      | vlist l => simp [processField] at h

theorem processFields_char :
    ∀ (entries : List (String × Value)) (input vd : ValueDict)
      (errs : List String) (vd' : ValueDict) (errs' : List String),
      processFields input entries vd errs = .ok (vd', errs') →
      noOverlap (pathsOf entries) = true →
      ∀ pc ∈ entries, getNestedKeys (.vdict vd) (splitPath pc.1) = .vnull →
        ∃ cfg, pc.2 = .vdict cfg ∧
          getNestedKeys (.vdict vd') (splitPath pc.1) = fieldWrite input pc.1 cfg := by
  intro entries
  induction entries with
  | nil => intro input vd errs vd' errs' _ _ pc hmem; simp at hmem
  | cons hd rest ih =>
      intro input vd errs vd' errs' h hno pc hmem hinit
      obtain ⟨path, config⟩ := hd
      rw [processFields] at h
      simp only [pathsOf, List.map_cons, noOverlap, Bool.and_eq_true] at hno
      cases config with
      | vdict cfg =>
          cases hpf : processField input vd path (.vdict cfg) with
          | error e => rw [hpf] at h; simp at h
          | ok out =>
              obtain ⟨vd2, es⟩ := out
              simp only [hpf] at h
              have hspec := processField_spec input vd path cfg vd2 es hpf
              rcases List.mem_cons.mp hmem with hhead | htail
              · subst hhead
                refine ⟨cfg, rfl, ?_⟩
                have hrest : ∀ e ∈ rest,
                    ¬ splitPath e.1 <+: splitPath path ∧
                    ¬ splitPath path <+: splitPath e.1 := by
                  intro e he
                  have hh := noOverlapWith_spec _ _ _ hno.1
                    (List.mem_map_of_mem (fun x => splitPath x.1) he)
                  exact ⟨hh.2, hh.1⟩
                have hpres := processFields_preserve rest input vd2
                  (errs ++ es) vd' errs' (splitPath path) h hrest
                rcases hspec.2 with ⟨w, hw, hfw⟩ | ⟨hid, hfw⟩
                · rw [hpres, setNested_get _ _ _ _ hw, hfw]
                · rw [hpres, hid, hinit, hfw]
              · have hinit2 : getNestedKeys (.vdict vd2) (splitPath pc.1)
                    = .vnull := by
                  have hh := noOverlapWith_spec _ _ _ hno.1
                    (List.mem_map_of_mem (fun x => splitPath x.1) htail)
                  rcases hspec.2 with ⟨w, hw, _⟩ | ⟨hid, _⟩
                  · rw [getNested_preserve (splitPath path) vd vd2 w
                      (splitPath pc.1) hw hh.1 hh.2]
                    exact hinit
                  · rw [hid]; exact hinit
                exact ih input vd2 (errs ++ es) vd' errs' h hno.2 pc htail hinit2
      | vnull => simp [processField] at h
      | vbool b => simp [processField] at h
      | vint n => simp [processField] at h
      | vstr s => simp [processField] at h
      | vlist l => simp [processField] at h

theorem pyGet_ok_of (d : ValueDict) (k : String) (v : Value)
    (h : dget d k = some v) : pyGet d k = .ok v := by
  simp [pyGet, h]

theorem pyGet_err_of (d : ValueDict) (k : String)
    (h : dget d k = none) : pyGet d k = .error (.keyError k) := by
  simp [pyGet, h]

theorem epure_bind {α β : Type} (a : α) (f : α → Except PyError β) :
    ((pure a : Except PyError α) >>= f) = f a := rfl

theorem validate_ok_inv (store : Store) (slug : String) (input : ValueDict)
    (r : ValidationResult) (doc sd : ValueDict)
    (hok : validate_user_input store slug input = .ok r)
    (hfind : findActive store slug = some doc)
    (hsd : dget doc "settings_schema" = some (.vdict sd)) :
    processFields input (flatten_schema sd).toList .nil []
      = .ok (r.validated_data, r.errors) ∧
    r.valid = (r.errors.length == 0) := by
  simp only [validate_user_input, get_model_settings, hfind] at hok
  cases hv1 : dget doc "model_slug" with
  | none => rw [pyGet_err_of _ _ hv1, ebind_err, ebind_err] at hok; simp at hok
  | some v1 =>
  rw [pyGet_ok_of _ _ _ hv1, ebind_ok] at hok
  cases hv2 : dget doc "model_name" with
  | none => rw [pyGet_err_of _ _ hv2, ebind_err, ebind_err] at hok; simp at hok
  | some v2 =>
  rw [pyGet_ok_of _ _ _ hv2, ebind_ok] at hok
  cases hv3 : dget doc "version" with
  | none => rw [pyGet_err_of _ _ hv3, ebind_err, ebind_err] at hok; simp at hok
  | some v3 =>
  rw [pyGet_ok_of _ _ _ hv3, ebind_ok] at hok
  rw [pyGet_ok_of _ _ _ hsd, ebind_ok] at hok
  cases hv5 : dget doc "ui_layout" with
  | none => rw [pyGet_err_of _ _ hv5, ebind_err, ebind_err] at hok; simp at hok
  | some v5 =>
  rw [pyGet_ok_of _ _ _ hv5, ebind_ok] at hok
  cases hv6 : dget doc "pricing" with
  | none => rw [pyGet_err_of _ _ hv6, ebind_err, ebind_err] at hok; simp at hok
  | some v6 =>
  rw [pyGet_ok_of _ _ _ hv6, ebind_ok] at hok
  cases hv7 : dget doc "estimated_time" with
  | none => rw [pyGet_err_of _ _ hv7, ebind_err, ebind_err] at hok; simp at hok
  | some v7 =>
  rw [pyGet_ok_of _ _ _ hv7, ebind_ok] at hok
  have hok2 : (match processFields input (flatten_schema sd).toList .nil [] with
      | .ok (vd, errs) =>
          Except.ok (⟨errs.length == 0, errs, vd⟩ : ValidationResult)
      | .error e => Except.error e) = .ok r := hok
  cases hpf : processFields input (flatten_schema sd).toList .nil [] with
  | error e => rw [hpf] at hok2; simp at hok2
  | ok out =>
      obtain ⟨vd, errs⟩ := out
      simp only [hpf, Except.ok.injEq] at hok2
      subst hok2
      exact ⟨rfl, rfl⟩

/-- C1: the two failure kinds of `validate_user_input` are distinct.  If
no active settings document exists for `model_slug`, the call raises the
`ValueError` of `get_model_settings` (propagated, never swallowed).  If
an active, well-formed settings document exists, the call returns a
normal result for every input — constraint violations are reported
inside the returned value and never raised. -/
theorem claim_C1 (store : Store) (slug : String) (input : ValueDict) :
    (findActive store slug = none →
      validate_user_input store slug input
        = .error (.valueError (notFoundMsg slug))) ∧
    (∀ doc, findActive store slug = some doc → wfDoc doc = true →
      ∃ r, validate_user_input store slug input = .ok r) := by
  constructor
  · intro hnone
    simp only [validate_user_input, get_model_settings, hnone]
    rfl
  · intro doc hfind hwf
    simp only [wfDoc, Bool.and_eq_true] at hwf
    obtain ⟨hkeys, hschema⟩ := hwf
    simp only [hasKeys, requiredKeys, Bool.and_eq_true, ValueDict.dcontains,
      and_true] at hkeys
    obtain ⟨k1, k2, k3, k4, k5, k6, k7⟩ := hkeys
    obtain ⟨v1, hv1⟩ := Option.isSome_iff_exists.mp k1
    obtain ⟨v2, hv2⟩ := Option.isSome_iff_exists.mp k2
    obtain ⟨v3, hv3⟩ := Option.isSome_iff_exists.mp k3
    obtain ⟨v5, hv5⟩ := Option.isSome_iff_exists.mp k5
    obtain ⟨v6, hv6⟩ := Option.isSome_iff_exists.mp k6
    obtain ⟨v7, hv7⟩ := Option.isSome_iff_exists.mp k7
    cases hss : dget doc "settings_schema" with
    | none => rw [hss] at hschema; simp at hschema
    | some w =>
        rw [hss] at hschema
        cases w with
        | vdict sd =>
            simp only [wfFlat, Bool.and_eq_true] at hschema
            obtain ⟨hwfL, hno⟩ := hschema
            obtain ⟨⟨vd, errs⟩, hout⟩ := processFields_ok
              (flatten_schema sd).toList input .nil [] hwfL hno
              (fun e _ => setOk_empty _)
            refine ⟨⟨errs.length == 0, errs, vd⟩, ?_⟩
            simp only [validate_user_input, get_model_settings, hfind]
            rw [pyGet_ok_of _ _ _ hv1, ebind_ok, pyGet_ok_of _ _ _ hv2,
              ebind_ok, pyGet_ok_of _ _ _ hv3, ebind_ok,
              pyGet_ok_of _ _ _ hss, ebind_ok, pyGet_ok_of _ _ _ hv5,
              ebind_ok, pyGet_ok_of _ _ _ hv6, ebind_ok,
              pyGet_ok_of _ _ _ hv7, ebind_ok]
            show (match processFields input (flatten_schema sd).toList .nil [] with
              | .ok (vd2, errs2) =>
                  Except.ok (⟨errs2.length == 0, errs2, vd2⟩ : ValidationResult)
              | .error e => Except.error e) = _
            rw [hout]
        | vnull => simp at hschema
        | vbool b => simp at hschema
        | vint n => simp at hschema
        | vstr s => simp at hschema
        | vlist l => simp at hschema

/-- C1 witness: against the empty store the unknown slug `x` raises the
not-found `ValueError`; against the well-formed one-field store
`storeC1`, validation returns a normal result for the empty input (which
violates the required-field constraint). -/
theorem claim_C1_witness :
    validate_user_input [] "x" .nil
      = .error (.valueError (notFoundMsg "x")) ∧
    ∃ r, validate_user_input storeC1 "m" .nil = .ok r := by
  refine ⟨(claim_C1 [] "x" .nil).1 rfl, ?_⟩
  exact (claim_C1 storeC1 "m" .nil).2 (mkDoc (.cons "prompt"
    (.vdict (.cons "type" (.vstr "text")
      (.cons "required" (.vbool true) .nil))) .nil)) rfl (by decide)

/-- C2: a required field whose dotted path has no value in the input
contributes exactly the error `"Field '<path>' is required"` (the
type-specific validator runs no further check for it), that message
appears in the returned errors, and `validated_data` has nothing at the
field's path. -/
theorem claim_C2 (store : Store) (slug : String) (input : ValueDict)
    (r : ValidationResult) (doc sd : ValueDict) (path : String)
    (cfg : ValueDict)
    (hok : validate_user_input store slug input = .ok r)
    (hfind : findActive store slug = some doc)
    (hsd : dget doc "settings_schema" = some (.vdict sd))
    (hno : noOverlap (pathsOf (flatten_schema sd).toList) = true)
    (hmem : (path, Value.vdict cfg) ∈ (flatten_schema sd).toList)
    (hreq : dget cfg "required" = some (.vbool true))
    (hnull : get_nested_value input path = .vnull) :
    requiredMsg path ∈ r.errors ∧
    getNestedKeys (.vdict r.validated_data) (splitPath path) = .vnull ∧
    fieldErrs input path (.vdict cfg) = .ok [requiredMsg path] := by
  have hrun := (validate_ok_inv store slug input r doc sd hok hfind hsd).1
  have hreqT : truthy (dgetD cfg "required" (.vbool false)) = true := by
    simp [ValueDict.dgetD, hreq, truthy]
  have hcond : (truthy (dgetD cfg "required" (.vbool false))
      && isNull (get_nested_value input path)) = true := by
    simp [hreqT, hnull, isNull]
  have hstep : ∀ vd0 : ValueDict,
      processField input vd0 path (.vdict cfg)
        = .ok (vd0, [requiredMsg path]) := by
    intro vd0
    simp only [processField]
    rw [if_pos hcond]
  refine ⟨?_, ?_, ?_⟩
  · exact processFields_mem _ input .nil [] r.validated_data r.errors
      path (.vdict cfg) [requiredMsg path] hrun hmem hstep
      (requiredMsg path) (List.mem_singleton_self _)
  · obtain ⟨cfg2, hcfg2, hlook⟩ := processFields_char _ input .nil []
      r.validated_data r.errors hrun hno (path, .vdict cfg) hmem
      (getNested_empty _ (splitPath_ne_nil path))
    have : cfg2 = cfg := by
      simpa using hcfg2.symm
    subst this
    rw [hlook]
    simp only [fieldWrite]
    rw [if_pos hcond]
  · simp only [fieldErrs]
    rw [if_pos hcond]

/-- C4: every result of `validate_user_input` satisfies
`valid == (errors is empty)`, and for every declared field path the
value found in `validated_data` is exactly the field's local outcome
(`fieldWrite`): the input value when it validated, the default when
absent-with-default, and nothing when the field failed validation or was
optional-and-absent-without-default. -/
theorem claim_C4 (store : Store) (slug : String) (input : ValueDict)
    (r : ValidationResult) (doc sd : ValueDict)
    (hok : validate_user_input store slug input = .ok r)
    (hfind : findActive store slug = some doc)
    (hsd : dget doc "settings_schema" = some (.vdict sd))
    (hno : noOverlap (pathsOf (flatten_schema sd).toList) = true) :
    (r.valid = true ↔ r.errors = []) ∧
    ∀ pc ∈ (flatten_schema sd).toList, ∃ cfg, pc.2 = Value.vdict cfg ∧
      getNestedKeys (.vdict r.validated_data) (splitPath pc.1)
        = fieldWrite input pc.1 cfg := by
  obtain ⟨hrun, hvalid⟩ := validate_ok_inv store slug input r doc sd hok
    hfind hsd
  constructor
  · rw [hvalid]
    simp [List.length_eq_zero]
  · intro pc hmem
    exact processFields_char _ input .nil [] r.validated_data r.errors
      hrun hno pc hmem (getNested_empty _ (splitPath_ne_nil pc.1))

/-- C5: an optional field with no value at its dotted path receives its
default in `validated_data` (nested intermediate mappings are created as
needed, as the witness's two-level path shows), and is entirely absent
when its definition has no default. -/
theorem claim_C5 (store : Store) (slug : String) (input : ValueDict)
    (r : ValidationResult) (doc sd : ValueDict) (path : String)
    (cfg : ValueDict)
    (hok : validate_user_input store slug input = .ok r)
    (hfind : findActive store slug = some doc)
    (hsd : dget doc "settings_schema" = some (.vdict sd))
    (hno : noOverlap (pathsOf (flatten_schema sd).toList) = true)
    (hmem : (path, Value.vdict cfg) ∈ (flatten_schema sd).toList)
    (hreq : truthy (dgetD cfg "required" (.vbool false)) = false)
    (hnull : get_nested_value input path = .vnull) :
    (∀ dv, dget cfg "default" = some dv →
      getNestedKeys (.vdict r.validated_data) (splitPath path) = dv) ∧
    (dget cfg "default" = none →
      getNestedKeys (.vdict r.validated_data) (splitPath path) = .vnull) := by
  have hrun := (validate_ok_inv store slug input r doc sd hok hfind hsd).1
  obtain ⟨cfg2, hcfg2, hlook⟩ := processFields_char _ input .nil []
    r.validated_data r.errors hrun hno (path, .vdict cfg) hmem
    (getNested_empty _ (splitPath_ne_nil path))
  have hc : cfg2 = cfg := by simpa using hcfg2.symm
  rw [hc] at hlook
  have hfw : fieldWrite input path cfg = (dget cfg "default").getD .vnull := by
    simp [fieldWrite, hreq, hnull, isNull]
  constructor
  · intro dv hdv
    rw [hlook, hfw, hdv]
    rfl
  · intro hdv
    rw [hlook, hfw, hdv]
    rfl

/-- C2 witness: the spec's round-trip shape — a required textarea at the
nested path `basic.concept` with an empty input — reports exactly the
required error and leaves `validated_data` empty at that path. -/
theorem claim_C2_witness :
    requiredMsg "basic.concept" ∈ rC2.errors ∧
    getNestedKeys (.vdict rC2.validated_data)
      (splitPath "basic.concept") = .vnull ∧
    fieldErrs .nil "basic.concept" (.vdict cfgC2)
      = .ok [requiredMsg "basic.concept"] :=
  claim_C2 storeC2 "m" .nil rC2 (mkDoc schemaC2) schemaC2 "basic.concept"
    cfgC2 rfl rfl rfl (by decide) (by decide) rfl rfl

/-- C4 witness: the theorem applied at `storeC10` with the empty input —
the result is valid with empty errors and the value found at `f` equals
the field's local outcome. -/
theorem claim_C4_witness :
    (rC10.valid = true ↔ rC10.errors = []) ∧
    getNestedKeys (.vdict rC10.validated_data) (splitPath "f")
      = fieldWrite .nil "f" cfgC10 := by
  have h := claim_C4 storeC10 "m" .nil rC10 (mkDoc schemaC10) schemaC10
    rfl rfl rfl (by decide)
  refine ⟨h.1, ?_⟩
  obtain ⟨cfg, hcfg, hlook⟩ := h.2 ("f", .vdict cfgC10) (by decide)
  have hc : cfg = cfgC10 := by simpa using hcfg.symm
  rw [hc] at hlook
  exact hlook

/-- C5 witness: the spec's example — `structure.chapters_count` with
`default: 10` and no value in the input yields
`validated_data["structure"]["chapters_count"] == 10`, with the
intermediate `structure` mapping created on the way. -/
theorem claim_C5_witness :
    getNestedKeys (.vdict rC5.validated_data)
      (splitPath "structure.chapters_count") = .vint 10 ∧
    rC5.validated_data = .cons "structure"
      (.vdict (.cons "chapters_count" (.vint 10) .nil)) .nil := by
  have h := claim_C5 storeC5 "m" .nil rC5 (mkDoc schemaC5) schemaC5
    "structure.chapters_count" cfgC5 rfl rfl rfl (by decide) (by decide)
    rfl rfl
  exact ⟨h.1 (.vint 10) rfl, rfl⟩

/-- C9: an explicit `null` in the input is indistinguishable from an
absent path.  First, a `null` written at a dotted path reads back as
`vnull`, exactly what `_get_nested_value` returns for a missing path.
Second, whenever the extracted value is `null`, the loop body behaves as
if the input were empty.  Third, in that situation a required field
contributes exactly the "is required" error, an optional field
contributes no error and leaves its default (or nothing), and the
type-specific validator is never consulted. -/
theorem claim_C9 (d d2 input vd : ValueDict) (ks : List String)
    (path : String) (c : Value) (cfg : ValueDict) :
    (setNestedKeys d ks .vnull = .ok d2 →
      getNestedKeys (.vdict d2) ks = .vnull) ∧
    (get_nested_value input path = .vnull →
      processField input vd path c = processField .nil vd path c) ∧
    (get_nested_value input path = .vnull →
      fieldErrs input path (.vdict cfg)
        = .ok (if truthy (dgetD cfg "required" (.vbool false))
               then [requiredMsg path] else []) ∧
      fieldWrite input path cfg
        = (if truthy (dgetD cfg "required" (.vbool false))
           then .vnull else (dget cfg "default").getD .vnull)) := by
  refine ⟨fun h => setNested_get ks d d2 .vnull h, fun h => ?_, fun h => ?_⟩
  · cases c <;> simp [processField, h, getNested_nil]
  · cases h' : truthy (dgetD cfg "required" (.vbool false)) <;>
      simp [fieldErrs, fieldWrite, h, isNull, h']

/-- C9 witness: the input `{f: null}` — writing the null, running the
loop body on it (same as the empty input), and the required field at `f`
reporting exactly the required error. -/
theorem claim_C9_witness :
    getNestedKeys (.vdict (.cons "f" .vnull .nil)) ["f"] = .vnull ∧
    processField inputC9 .nil "f" (.vdict cfgC2)
      = processField .nil .nil "f" (.vdict cfgC2) ∧
    fieldErrs inputC9 "f" (.vdict cfgC2) = .ok [requiredMsg "f"] := by
  have h := claim_C9 .nil (.cons "f" .vnull .nil) inputC9 .nil ["f"] "f"
    (.vdict cfgC2) cfgC2
  exact ⟨h.1 rfl, h.2.1 rfl, ((h.2.2 rfl).1).trans rfl⟩

/-- C3: The claim says the administrative settings-update operation has
upsert semantics and succeeds whether or not a document exists.  The
code disagrees on both counts: when no document matches `model_slug` it
raises `ValueError` instead of creating one, and when a document exists
it raises `NameError`, because line 85 of the controller evaluates
`datetime.utcnow()` while the module never imports `datetime`.  This
theorem evaluates the embedded operation at a store containing a
`long-form-book` document (NameError) and at an empty store
(ValueError), and shows it errors on every input. -/
theorem claim_C3 :
    update_model_settings storeC3 "long-form-book"
        (.cons "version" (.vstr "2") .nil)
      = .error (.nameError "name datetime is not defined") ∧
    update_model_settings [] "absent" .nil
      = .error (.valueError (notFoundMsg "absent")) ∧
    ∀ store slug data, ∃ e, update_model_settings store slug data = .error e := by
  refine ⟨rfl, rfl, fun store slug data => ?_⟩
  unfold update_model_settings
  cases findBySlug store slug with
  | none => exact ⟨_, rfl⟩
  | some d => exact ⟨_, rfl⟩

/-- C6 (counterexample): the claim says a present `max_length` of 0
rejects every non-empty string.  In the code `if max_length and ...`
tests Python truthiness, so `max_length: 0` is skipped: validating the
two-character string `"ab"` against a text field with
`validation.max_length == 0` yields `valid = true` with no errors, and
the value is kept in `validated_data`. -/
theorem claim_C6_counterexample :
    dget cfgC6 "validation"
      = some (.vdict (.cons "max_length" (.vint 0) .nil)) ∧
    validate_user_input storeC6 "m" (.cons "f" (.vstr "ab") .nil)
      = .ok ⟨true, [], .cons "f" (.vstr "ab") .nil⟩ ∧
    validate_field "f" (.vstr "ab") cfgC6 = .ok [] :=
  ⟨rfl, rfl, rfl⟩

/-- C6 (amended): for a text/textarea field with a present value: a
non-string value yields exactly the "must be a string" error and length
checks are skipped; for a string value, `min_length`/`max_length` are
enforced inclusively whenever present and truthy (in particular any
positive bound); a present but falsy bound — such as `max_length: 0` —
is ignored entirely. -/
theorem claim_C6 (path : String) (v : Value) (s : String)
    (cfg vd : ValueDict) (mn mx : Int) :
    ((dget cfg "type" = some (.vstr "text") ∨
      dget cfg "type" = some (.vstr "textarea")) →
      (isStr v = false → validate_field path v cfg = .ok [stringMsg path]) ∧
      (dget cfg "validation" = some (.vdict vd) →
        dget vd "min_length" = some (.vint mn) →
        dget vd "max_length" = some (.vint mx) →
        0 < mn → 0 < mx →
        validate_field path (.vstr s) cfg
          = .ok ((if (s.length : Int) < mn
                  then [atLeastCharsMsg path (toString mn)] else [])
              ++ (if (s.length : Int) > mx
                  then [atMostCharsMsg path (toString mx)] else [])))) ∧
    (dget vd "min_length" = some (.vint 0) →
      minLenErrs vd path s.length = .ok []) ∧
    (dget vd "max_length" = some (.vint 0) →
      maxLenErrs vd path s.length = .ok []) := by
  have hstep : ∀ w : Value,
      (dget cfg "type" = some (.vstr "text") ∨
       dget cfg "type" = some (.vstr "textarea")) →
      validate_field path w cfg =
        (match w with
         | .vstr s' =>
             (match dgetD cfg "validation" (.vdict .nil) with
              | .vdict vd2 =>
                  (match minLenErrs vd2 path s'.length with
                   | .error e => .error e
                   | .ok e1 =>
                       match maxLenErrs vd2 path s'.length with
                       | .error e => .error e
                       | .ok e2 => .ok (e1 ++ e2))
              | _ => .error (.attributeError "get"))
         | _ => .ok [stringMsg path]) := by
    intro w htype
    rcases htype with h | h <;>
      · unfold validate_field
        simp only [dgetD, h, Option.getD_some]
        rfl
  refine ⟨fun htype => ⟨fun hv => ?_, fun hval hmn hmx hmn0 hmx0 => ?_⟩,
    fun h0 => ?_, fun h0 => ?_⟩
  · rw [hstep v htype]
    cases v <;> simp_all [isStr]
  · have hmn' : mn ≠ 0 := by omega
    have hmx' : mx ≠ 0 := by omega
    rw [hstep (.vstr s) htype]
    simp only [dgetD]
    rw [hval]
    simp [minLenErrs, maxLenErrs, hmn, hmx, truthy, toNum, pyStr, hmn', hmx']
  · simp [minLenErrs, h0, truthy]
  · simp [maxLenErrs, h0, truthy]

/-- C6 witness: the amended theorem applied at concrete fields — a
non-string value against `cfgC6`, the string `"abcde"` against positive
bounds 2/4 (too long), and a zero `max_length` being skipped. -/
theorem claim_C6_witness :
    validate_field "f" (.vint 1) cfgC6 = .ok [stringMsg "f"] ∧
    validate_field "f" (.vstr "abcde") cfgC6b = .ok [atMostCharsMsg "f" "4"] ∧
    maxLenErrs (.cons "max_length" (.vint 0) .nil) "f" 2 = .ok [] := by
  refine ⟨((claim_C6 "f" (.vint 1) "" cfgC6 .nil 1 1).1 (Or.inl rfl)).1 rfl,
    ?_, (claim_C6 "f" (.vint 1) "ab" .nil
      (.cons "max_length" (.vint 0) .nil) 1 1).2.2 rfl⟩
  have h := ((claim_C6 "f" (.vint 1) "abcde" cfgC6b
      (.cons "min_length" (.vint 2) (.cons "max_length" (.vint 4) .nil)) 2 4).1
      (Or.inl rfl)).2 rfl rfl rfl (by norm_num) (by norm_num)
  refine h.trans ?_
  decide

/-- C7: range bounds are inclusive, matching the spec's boundary
example: against `{type: "range", min: 5, max: 20}`, 4 is rejected with
the "at least 5" message, 5 and 20 are accepted with no errors, 21 is
rejected with the "at most 20" message; a non-numeric value yields
exactly the "must be a number" message (no bound check runs); and in
general an integer is accepted iff it lies within the inclusive bounds. -/
theorem claim_C7 (path : String) (v : Value) (mn mx n : Int) :
    validate_field path (.vint 4) rangeCfg520 = .ok [atLeastMsg path "5"] ∧
    validate_field path (.vint 5) rangeCfg520 = .ok [] ∧
    validate_field path (.vint 20) rangeCfg520 = .ok [] ∧
    validate_field path (.vint 21) rangeCfg520 = .ok [atMostMsg path "20"] ∧
    (toNum v = none →
      validate_field path v rangeCfg520 = .ok [numberMsg path]) ∧
    validate_field path (.vint n) (rangeCfg mn mx)
      = .ok ((if n < mn then [atLeastMsg path (toString mn)] else [])
          ++ (if n > mx then [atMostMsg path (toString mx)] else [])) := by
  refine ⟨rfl, rfl, rfl, rfl, fun hv => ?_, ?_⟩
  · unfold validate_field
    rw [hv]
    simp [rangeCfg520, rangeCfg, dgetD, dget, valueBeq]
  · unfold validate_field
    simp [rangeCfg, dgetD, dget, valueBeq, minErrs, maxErrs, toNum, pyStr]

/-- C7 witness: the general part applied at the non-numeric value
`"many"` and at bounds 3/7 with the out-of-range value 9. -/
theorem claim_C7_witness :
    validate_field "f" (.vstr "many") rangeCfg520 = .ok [numberMsg "f"] ∧
    validate_field "f" (.vint 9) (rangeCfg 3 7) = .ok [atMostMsg "f" "7"] := by
  refine ⟨(claim_C7 "f" (.vstr "many") 0 0 0).2.2.2.2.1 rfl, ?_⟩
  have h := (claim_C7 "f" (.vstr "many") 3 7 9).2.2.2.2.2
  refine h.trans ?_
  decide

/-- C10: substituted defaults bypass validation.  Generally, when a
field's value is absent (`None`), the field is not required and a
default exists, the loop body writes the default without calling
`_validate_field`.  Concretely, `storeC10`'s field has `min: 5` and
`default: 3`: validating an empty input yields `valid = true` with the
violating default in `validated_data`, even though `_validate_field`
itself rejects the value 3 for that field. -/
theorem claim_C10 (vd input : ValueDict) (path : String) (cfg : ValueDict)
    (dv : Value) :
    (get_nested_value input path = .vnull →
      truthy (dgetD cfg "required" (.vbool false)) = false →
      dget cfg "default" = some dv →
      processField input vd path (.vdict cfg)
        = (match set_nested_value vd path dv with
           | .ok vd2 => .ok (vd2, [])
           | .error e => .error e)) ∧
    validate_user_input storeC10 "m" .nil
      = .ok ⟨true, [], .cons "f" (.vint 3) .nil⟩ ∧
    validate_field "f" (.vint 3) cfgC10 = .ok [atLeastMsg "f" "5"] := by
  refine ⟨fun habs hreq hdef => ?_, rfl, rfl⟩
  simp only [processField]
  rw [habs, hreq, hdef]
  simp [isNull]

/-- C10 witness: the general default-bypass statement applied at an
empty input and the defaulted field of `cfgC10` (default 3 written with
no errors), together with the concrete end-to-end runs. -/
theorem claim_C10_witness :
    processField .nil .nil "f" (.vdict cfgC10)
      = .ok (.cons "f" (.vint 3) .nil, []) ∧
    validate_user_input storeC10 "m" .nil
      = .ok ⟨true, [], .cons "f" (.vint 3) .nil⟩ := by
  refine ⟨?_, (claim_C10 .nil .nil "f" cfgC10 (.vint 3)).2.1⟩
  have h := (claim_C10 .nil .nil "f" cfgC10 (.vint 3)).1 rfl rfl rfl
  exact h.trans rfl

end Settings
